import Mathlib

/-!
Verification of `sample_registry/mapping.py` ("Parse, create, and validate
QIIME-style mapping files").

Python strings are embedded as `List Char` (`Str`), Python dicts over string
keys as association lists (`Rec`) whose key lists are duplicate-free, and a
text file as the list of its lines (without trailing newline characters).
Each definition below translates one function or constant of the source
module.
-/

/-- A Python string: a finite sequence of characters. -/
abbrev Str := List Char

/-- A Python dict with string keys and values, as an association list in
insertion order. -/
abbrev Rec := List (Str × Str)

/-- Shorthand for embedding a Lean string literal as a `Str`. -/
def S (s : String) : Str := s.toList

/-- The characters Python `str.strip()` removes (ASCII whitespace). -/
def pyIsSpace (c : Char) : Bool :=
  c = ' ' || c = '\t' || c = '\n' || c = '\x0b' || c = '\x0c' || c = '\r'

/-- Python `s.strip()`: drop leading and trailing whitespace. -/
def pyStrip (s : Str) : Str :=
  ((s.dropWhile pyIsSpace).reverse.dropWhile pyIsSpace).reverse

/-- Python `s.rstrip("\n\r")`: drop trailing newline and carriage-return
characters (first step of `_tokenize`). -/
def rstripNewline (s : Str) : Str :=
  (s.reverse.dropWhile (fun c => c = '\n' || c = '\r')).reverse

/-- Python `s.lstrip("#")`: drop leading comment markers (used on the header
line in `parse`). -/
def lstripHash (s : Str) : Str := s.dropWhile (fun c => c = '#')

/-- Python `line.startswith("#")`. -/
def startsWithHash : Str → Bool
  | [] => false
  | c :: _ => c = '#'

/-- Python `s.lower()` (ASCII case folding, as used on annotation field
names in `_cast`). -/
def pyLower (s : Str) : Str := s.map Char.toLower

/-- Python `line.split("\t")`: split on tab characters; an empty string
yields one empty token, and empty tokens are preserved. -/
def splitTab : Str → List Str
  | [] => [[]]
  | c :: cs =>
    if c = '\t' then [] :: splitTab cs
    else
      match splitTab cs with
      | [] => [[c]]
      | t :: ts => (c :: t) :: ts

/-- Python `"\t".join(values)`. -/
def joinTab : List Str → Str
  | [] => []
  | [s] => s
  | s :: ss => s ++ '\t' :: joinTab ss

/-- `_tokenize` from the source: strip the trailing newline, split on tabs,
strip surrounding whitespace from every token. -/
def tokenize (line : Str) : List Str :=
  (splitTab (rstripNewline line)).map pyStrip

/-- The `NAs` constant: tokens recognized as missing values when parsing. -/
def NAs : List Str :=
  [S "", S "0000-00-00", S "null", S "Null", S "NA", S "na", S "none", S "None"]

/-- Python `r[k]` / `r.get(k)` on a dict: the value stored under key `k`. -/
def pyLookup (k : Str) (r : Rec) : Option Str :=
  (r.find? (fun p => p.1 = k)).map (fun p => p.2)

/-- The keys of a record, in insertion order. -/
def keysOf (r : Rec) : List Str := r.map (fun p => p.1)

/-- One step of building a Python dict from a pair list: an existing key is
updated in place, a new key is appended at the end. -/
def dictInsert (r : Rec) (k v : Str) : Rec :=
  if (r.find? (fun p => p.1 = k)).isSome then
    r.map (fun p => if p.1 = k then (k, v) else p)
  else r ++ [(k, v)]

/-- Python `dict(pairs)`: fold the pairs into an insertion-ordered dict. -/
def pyDict (ps : List (Str × Str)) : Rec :=
  ps.foldl (fun r p => dictInsert r p.1 p.2) []

/-- Python `list.index(x)`: position of the first occurrence of `x`. -/
def pyIndex (x : Str) : List Str → Nat
  | [] => 0
  | y :: ys => if y = x then 0 else pyIndex x ys + 1

/-- Python string comparison `a <= b` (lexicographic by code point),
used by `sorted` in `create`. -/
def strLe : Str → Str → Bool
  | [], _ => true
  | _ :: _, [] => false
  | a :: as, b :: bs => if a = b then strLe as bs else decide (a < b)

/-- Stable insertion into a `strLe`-sorted list. -/
def sortedInsert (x : Str) : List Str → List Str
  | [] => [x]
  | y :: ys => if strLe y x then y :: sortedInsert x ys else x :: y :: ys

/-- Python `sorted` on a list of strings (stable, lexicographic). -/
def pySorted : List Str → List Str
  | [] => []
  | x :: xs => sortedInsert x (pySorted xs)

/-- Errors the module can raise.  The source raises `ValueError` (and an
assertion) with distinct messages; the logical kinds are separated here. -/
inductive MappingError where
  | emptyInput
  | blankHeaderKey
  | conflict
  | invalidCharacter
  | missingField
  | duplicate
  deriving DecidableEq, Repr

/-! ## `parse` -/

/-- The record built from one data line of `parse`:
`dict([(k, v) for k, v in zip(keys, vals) if v not in NAs])`. -/
def mkRecord (ks vs : List Str) : Rec :=
  pyDict ((ks.zip vs).filter (fun p => p.2 ∉ NAs))

/-- The loop body of `parse` over the data lines: comment lines and blank
lines are skipped, every other line yields one record. -/
def parseLines (ks : List Str) : List Str → List Rec
  | [] => []
  | l :: ls =>
    if startsWithHash l then parseLines ks ls
    else if pyStrip l = [] then parseLines ks ls
    else mkRecord ks (tokenize l) :: parseLines ks ls

/-- `parse` from the source: read the header from the first line (failing on
empty input or a blank header key, per the `assert`), then parse each
subsequent line into a record. -/
def parse : List Str → Except MappingError (List Rec)
  | [] => .error .emptyInput
  | hl :: rest =>
    let ks := tokenize (lstripHash hl)
    if ks.any (fun k => k.isEmpty) then .error .blankHeaderKey
    else .ok (parseLines ks rest)

/-! ## `create` (Registry Writer) -/

/-- The column-name discovery loop of `create`: start from the two core
fields and append every not-yet-seen key of every sample, keys of one
sample visited in sorted order. -/
def createColumns (samples : List Rec) : List Str :=
  samples.foldl
    (fun cols s =>
      (pySorted (keysOf s)).foldl
        (fun cols k => if k ∈ cols then cols else cols ++ [k]) cols)
    [S "sample_name", S "barcode_sequence"]

/-- The row-filling loop of `create`: start from a row of `"NA"` cells and
overwrite the cell at `column_names.index(key)` for each item. -/
def createRow (cols : List Str) (s : Rec) : List Str :=
  s.foldl (fun row kv => row.set (pyIndex kv.1 cols) kv.2)
    (cols.map (fun _ => S "NA"))

/-- `create` from the source, as the list of lines it writes: the header
line followed by one row per sample. -/
def create (samples : List Rec) : List Str :=
  let cols := createColumns samples
  joinTab cols :: samples.map (fun s => joinTab (createRow cols s))

/-! ## `_cast` (EAV Caster) and `create_qiime` (QIIME Writer) -/

/-- A Sample Descriptor as used by `create_qiime` and `_cast`. -/
structure SampleDesc where
  name : Str
  barcode : Str
  primer : Str
  accession : Str
  formatted_accession : Str
  deriving DecidableEq, Repr

/-- A Run Descriptor: the five attributes `create_qiime` reads. -/
structure RunDesc where
  comment : Str
  date : Str
  region : Str
  platform : Str
  formatted_accession : Str
  deriving DecidableEq, Repr

/-- `QIIME_FIELDS` from the source: the rename table between QIIME and
registry field names.  (It has two pairs.) -/
def QIIME_FIELDS : List (Str × Str) :=
  [(S "SampleID", S "sample_name"),
   (S "BarcodeSequence", S "barcode_sequence")]

/-- The body of the annotation loop in `_cast`, acting on the state
`(fields, rows)`.  Triples whose accession is not in `accs` and triples
whose field name lowercases to `"description"` are skipped; a new field is
appended and every row is padded with `"NA"`; then the matched sample's
cell for the field is set to the value. -/
def castStep (accs : List Str) (st : List Str × List (List Str))
    (t : Str × Str × Str) : List Str × List (List Str) :=
  if t.1 ∈ accs then
    if pyLower t.2.1 = S "description" then st
    else
      let fr :=
        if t.2.1 ∈ st.1 then st
        else (st.1 ++ [t.2.1], st.2.map (fun r => r ++ [S "NA"]))
      let sampleIdx := pyIndex t.1 accs
      let fieldIdx := pyIndex t.2.1 fr.1
      (fr.1, fr.2.set sampleIdx ((fr.2.getD sampleIdx []).set fieldIdx t.2.2))
  else st

/-- `_cast` from the source: fold the annotation stream over the initial
state of no fields and one empty row per sample. -/
def cast_eav (samples : List SampleDesc) (anns : List (Str × Str × Str)) :
    List Str × List (List Str) :=
  anns.foldl (castStep (samples.map (fun s => s.accession)))
    ([], samples.map (fun _ => []))

/-- `create_qiime` from the source, as the list of lines it writes:
header, five comment lines, then one row per (sample, annotation row)
pair. -/
def create_qiime (run : RunDesc) (samples : List SampleDesc)
    (anns : List (Str × Str × Str)) : List Str :=
  let qiime_fields := QIIME_FIELDS.map (fun p => p.1)
  let cast := cast_eav samples anns
  let headerFields := qiime_fields ++ cast.1 ++ [S "Description"]
  ('#' :: joinTab headerFields) ::
  ('#' :: run.comment) ::
  (S "#Sequencing date: " ++ run.date) ::
  (S "#Region: " ++ run.region) ::
  (S "#Platform: " ++ run.platform) ::
  (S "#Bushman lab run accession: " ++ run.formatted_accession) ::
  (samples.zip cast.2).map
    (fun p => joinTab ([p.1.name, p.1.barcode, p.1.primer] ++ p.2 ++
                       [p.1.formatted_accession]))

/-! ## `convert_from_qiime` (Format Converter) -/

/-- Python `del r[k]`: remove the entry stored under `k`. -/
def pyDel (k : Str) (r : Rec) : Rec := r.filter (fun p => p.1 ≠ k)

/-- The rename loop of `convert_from_qiime`: for each `(qiime, core)` pair,
fail if the core field is already present, otherwise pop the QIIME field
and append its value under the core name. -/
def applyRenames : List (Str × Str) → Rec → Except MappingError Rec
  | [], r => .ok r
  | (q, c) :: rest, r =>
    if c ∈ keysOf r then .error .conflict
    else
      match pyLookup q r with
      | some v => applyRenames rest (pyDel q r ++ [(c, v)])
      | none => applyRenames rest r

/-- The per-record body of `convert_from_qiime`: drop a `"Description"`
entry if present, then apply the QIIME→registry renames. -/
def convertOne (r : Rec) : Except MappingError Rec :=
  applyRenames QIIME_FIELDS
    (if S "Description" ∈ keysOf r then pyDel (S "Description") r else r)

/-- `convert_from_qiime` over a whole record sequence: the generator yields
converted records until the first failure. -/
def convert_from_qiime : List Rec → Except MappingError (List Rec)
  | [] => .ok []
  | r :: rs => do
    let r2 ← convertOne r
    let rs2 ← convert_from_qiime rs
    return r2 :: rs2

/-! ## `validate` (Validator) -/

/-- `ALLOWED_CHARS` from the source: allowed character set per constrained
field. -/
def ALLOWED_CHARS : List (Str × List Char) :=
  [(S "sample_name",
    S "._-abcdefghijklmnopqrstuvwxyzABCDEFGHIJKLMNOPQRSTUVWXYZ0123456789"),
   (S "barcode_sequence", S "AGCT"),
   (S "primer_sequence", S "AGCTRYMKSWHBVDN")]

/-- The character-check loop at the top of `validate`'s record loop: the
first constrained field present in the record with a character outside its
allowed set raises `InvalidCharacterError`. -/
def checkChars (r : Rec) : Except MappingError Unit :=
  match ALLOWED_CHARS.find? (fun kc =>
      match pyLookup kc.1 r with
      | some v => !(v.all (fun ch => kc.2.contains ch))
      | none => false) with
  | some _ => .error .invalidCharacter
  | none => .ok ()

/-- The record loop of `validate`, carrying the sets of seen sample names
and seen barcodes. -/
def validateAux (seenNames seenBarcodes : List Str) :
    List Rec → Except MappingError Unit
  | [] => .ok ()
  | r :: rs =>
    match checkChars r with
    | .error e => .error e
    | .ok _ =>
      match pyLookup (S "sample_name") r with
      | none => .error .missingField
      | some n =>
        if n ∈ seenNames then .error .duplicate
        else
          let b := (pyLookup (S "barcode_sequence") r).getD []
          if b ∈ seenBarcodes then .error .duplicate
          else validateAux (n :: seenNames) (b :: seenBarcodes) rs

/-- `validate` from the source: check every record in order, starting from
empty seen-sets. -/
def validate (recs : List Rec) : Except MappingError Unit :=
  validateAux [] [] recs

/-! ## Basic lemmas about the string operations -/

/-- A token that survives tokenization unchanged: nonempty, already
whitespace-stripped, and free of tabs, newlines and carriage returns. -/
def cleanStr (s : Str) : Prop :=
  s ≠ [] ∧ pyStrip s = s ∧ ∀ c ∈ s, c ≠ '\t' ∧ c ≠ '\n' ∧ c ≠ '\r'

instance (s : Str) : Decidable (cleanStr s) := by
  unfold cleanStr; infer_instance

theorem splitTab_no_tab (s : Str) (h : '\t' ∉ s) : splitTab s = [s] := by
  induction s with
  | nil => rfl
  | cons c cs ih =>
    have hc : c ≠ '\t' := fun hh => h (hh ▸ List.mem_cons_self c cs)
    have : '\t' ∉ cs := fun hh => h (List.mem_cons_of_mem c hh)
    simp [splitTab, hc, ih this]

theorem splitTab_append_tab (s t : Str) (h : '\t' ∉ s) :
    splitTab (s ++ '\t' :: t) = s :: splitTab t := by
  induction s with
  | nil => simp [splitTab]
  | cons c cs ih =>
    have hc : c ≠ '\t' := fun hh => h (hh ▸ List.mem_cons_self c cs)
    have h2 : '\t' ∉ cs := fun hh => h (List.mem_cons_of_mem c hh)
    show splitTab (c :: (cs ++ '\t' :: t)) = (c :: cs) :: splitTab t
    rw [splitTab, if_neg hc, ih h2]

theorem splitTab_joinTab (ss : List Str) (hne : ss ≠ [])
    (h : ∀ s ∈ ss, '\t' ∉ s) : splitTab (joinTab ss) = ss := by
  induction ss with
  | nil => exact absurd rfl hne
  | cons s rest ih =>
    cases rest with
    | nil =>
      simp [joinTab, splitTab_no_tab s (h s (List.mem_cons_self s []))]
    | cons s2 rest2 =>
      have hs : '\t' ∉ s := h s (List.mem_cons_self _ _)
      have hrest : ∀ x ∈ s2 :: rest2, '\t' ∉ x :=
        fun x hx => h x (List.mem_cons_of_mem s hx)
      have : joinTab (s :: s2 :: rest2) = s ++ '\t' :: joinTab (s2 :: rest2) := rfl
      rw [this, splitTab_append_tab s _ hs, ih (by simp) hrest]

theorem mem_joinTab (ss : List Str) (c : Char) (h : c ∈ joinTab ss) :
    c = '\t' ∨ ∃ s ∈ ss, c ∈ s := by
  induction ss with
  | nil => simp [joinTab] at h
  | cons s rest ih =>
    cases rest with
    | nil =>
      right; exact ⟨s, List.mem_cons_self _ _, h⟩
    | cons s2 rest2 =>
      have : joinTab (s :: s2 :: rest2) = s ++ '\t' :: joinTab (s2 :: rest2) := rfl
      rw [this] at h
      rcases List.mem_append.mp h with hs | ht
      · right; exact ⟨s, List.mem_cons_self _ _, hs⟩
      · rcases List.mem_cons.mp ht with rfl | hj
        · left; rfl
        · rcases ih hj with h1 | ⟨x, hx, hcx⟩
          · left; exact h1
          · right; exact ⟨x, List.mem_cons_of_mem s hx, hcx⟩

theorem dropWhile_eq_self_of_all {p : Char → Bool} {l : Str}
    (h : ∀ c ∈ l, p c = false) : l.dropWhile p = l := by
  cases l with
  | nil => rfl
  | cons x xs => simp [List.dropWhile_cons, h x (List.mem_cons_self x xs)]

theorem rstripNewline_eq_self (s : Str)
    (h : ∀ c ∈ s, c ≠ '\n' ∧ c ≠ '\r') : rstripNewline s = s := by
  unfold rstripNewline
  rw [dropWhile_eq_self_of_all, List.reverse_reverse]
  intro c hc
  rcases h c (List.mem_reverse.mp hc) with ⟨h1, h2⟩
  simp [h1, h2]

theorem pyStrip_map_clean (ss : List Str) (h : ∀ s ∈ ss, pyStrip s = s) :
    ss.map pyStrip = ss := by
  induction ss with
  | nil => rfl
  | cons s rest ih =>
    simp only [List.map_cons, h s (List.mem_cons_self _ _),
      ih (fun x hx => h x (List.mem_cons_of_mem s hx))]

theorem tokenize_joinTab (ss : List Str) (hne : ss ≠ [])
    (h : ∀ s ∈ ss, cleanStr s) : tokenize (joinTab ss) = ss := by
  unfold tokenize
  have hr : rstripNewline (joinTab ss) = joinTab ss := by
    apply rstripNewline_eq_self
    intro c hc
    rcases mem_joinTab ss c hc with rfl | ⟨s, hs, hcs⟩
    · exact ⟨by decide, by decide⟩
    · exact ⟨((h s hs).2.2 c hcs).2.1, ((h s hs).2.2 c hcs).2.2⟩
  have hsplit : splitTab (joinTab ss) = ss := by
    apply splitTab_joinTab ss hne
    intro s hs hmem
    exact ((h s hs).2.2 '\t' hmem).1 rfl
  rw [hr, hsplit]
  exact pyStrip_map_clean ss (fun s hs => (h s hs).2.1)

theorem mem_dropWhile_of_mem {p : Char → Bool} {c : Char} {s : Str}
    (hc : c ∈ s) (hp : p c = false) : c ∈ s.dropWhile p := by
  induction s with
  | nil => exact absurd hc (List.not_mem_nil c)
  | cons x xs ih =>
    by_cases hx : p x
    · rcases List.mem_cons.mp hc with rfl | hmem
      · rw [hx] at hp; exact Bool.noConfusion hp
      · simpa [List.dropWhile_cons, hx] using ih hmem
    · simpa [List.dropWhile_cons, hx] using hc

theorem pyStrip_ne_nil (s : Str) (c : Char) (hc : c ∈ s)
    (hsp : pyIsSpace c = false) : pyStrip s ≠ [] := by
  unfold pyStrip
  intro h
  have h1 : c ∈ (s.dropWhile pyIsSpace).reverse.dropWhile pyIsSpace :=
    mem_dropWhile_of_mem (List.mem_reverse.mpr (mem_dropWhile_of_mem hc hsp)) hsp
  rw [List.reverse_eq_nil_iff.mp h] at h1
  exact List.not_mem_nil c h1

/-! ## Lemmas about record lookup and dict construction -/

theorem pyLookup_cons (k k1 v1 : Str) (r : Rec) :
    pyLookup k ((k1, v1) :: r) =
      if k1 = k then some v1 else pyLookup k r := by
  by_cases h : k1 = k <;> simp [pyLookup, List.find?_cons, h]

@[simp]
theorem keysOf_nil : keysOf ([] : Rec) = [] := rfl

@[simp]
theorem keysOf_cons (p : Str × Str) (r : Rec) :
    keysOf (p :: r) = p.1 :: keysOf r := rfl

@[simp]
theorem keysOf_append (r t : Rec) :
    keysOf (r ++ t) = keysOf r ++ keysOf t := by
  simp [keysOf]

theorem pyLookup_eq_none (k : Str) (r : Rec) :
    pyLookup k r = none ↔ k ∉ keysOf r := by
  induction r with
  | nil => simp [pyLookup, keysOf]
  | cons p rest ih =>
    rw [show p = (p.1, p.2) from rfl, pyLookup_cons]
    by_cases h : p.1 = k
    · simp only [if_pos h, keysOf_cons]
      constructor
      · intro hh; cases hh
      · intro hh; exact absurd (by simp [h]) hh
    · simp only [if_neg h, keysOf_cons, List.mem_cons]
      rw [ih]
      constructor
      · intro hh hor
        rcases hor with h1 | h1
        · exact h h1.symm
        · exact hh h1
      · intro hh h1
        exact hh (Or.inr h1)

theorem pyLookup_isSome (k : Str) (r : Rec) :
    (pyLookup k r).isSome = true ↔ k ∈ keysOf r := by
  rcases hv : pyLookup k r with _ | v
  · simp only [Option.isSome_none, Bool.false_eq_true, false_iff]
    exact (pyLookup_eq_none k r).mp hv
  · simp only [Option.isSome_some, true_iff]
    by_contra hmem
    rw [(pyLookup_eq_none k r).mpr hmem] at hv
    cases hv

theorem pyLookup_mem (k v : Str) (r : Rec) (h : pyLookup k r = some v) :
    (k, v) ∈ r := by
  induction r with
  | nil => simp [pyLookup] at h
  | cons p rest ih =>
    rw [show p = (p.1, p.2) from rfl, pyLookup_cons] at h
    by_cases hp : p.1 = k
    · rw [if_pos hp] at h
      cases h
      exact hp ▸ List.mem_cons_self _ _
    · rw [if_neg hp] at h
      exact List.mem_cons_of_mem _ (ih h)

theorem mem_dictInsert (p : Str × Str) (r : Rec) (k v : Str)
    (h : p ∈ dictInsert r k v) : p ∈ r ∨ p = (k, v) := by
  unfold dictInsert at h
  by_cases hf : (r.find? (fun q => q.1 = k)).isSome
  · rw [if_pos hf] at h
    rcases List.mem_map.mp h with ⟨q, hq, hqe⟩
    by_cases hk : q.1 = k
    · right; rw [if_pos hk] at hqe; exact hqe.symm
    · left; rw [if_neg hk] at hqe; exact hqe ▸ hq
  · rw [if_neg hf] at h
    rcases List.mem_append.mp h with h1 | h1
    · left; exact h1
    · right; simpa using h1

theorem mem_pyDict (p : Str × Str) (ps : List (Str × Str))
    (h : p ∈ pyDict ps) : p ∈ ps := by
  suffices hgen : ∀ (l : List (Str × Str)) (acc : Rec),
      p ∈ l.foldl (fun r q => dictInsert r q.1 q.2) acc → p ∈ acc ∨ p ∈ l by
    rcases hgen ps [] h with h1 | h1
    · exact absurd h1 (List.not_mem_nil p)
    · exact h1
  intro l
  induction l with
  | nil => intro acc hh; left; exact hh
  | cons q rest ih =>
    intro acc hh
    rcases ih (dictInsert acc q.1 q.2) hh with h1 | h1
    · rcases mem_dictInsert p acc q.1 q.2 h1 with h2 | h2
      · left; exact h2
      · right; rw [h2, show (q.1, q.2) = q from rfl]; exact List.mem_cons_self _ _
    · right; exact List.mem_cons_of_mem q h1

theorem pyDict_of_nodup (ps : List (Str × Str))
    (h : (keysOf ps).Nodup) : pyDict ps = ps := by
  suffices hgen : ∀ (l : List (Str × Str)) (acc : Rec),
      (keysOf (acc ++ l)).Nodup →
      l.foldl (fun r q => dictInsert r q.1 q.2) acc = acc ++ l by
    simpa using hgen ps [] (by simpa using h)
  intro l
  induction l with
  | nil => intro acc _; simp
  | cons q rest ih =>
    intro acc hnd
    have hnd2 : (keysOf acc ++ q.1 :: keysOf rest).Nodup := by
      simpa using hnd
    have hq : q.1 ∉ keysOf acc := by
      intro hmem
      exact (List.nodup_append.mp hnd2).2.2 hmem (List.mem_cons_self _ _)
    have hfind : (acc.find? (fun p => p.1 = q.1)) = none := by
      rw [List.find?_eq_none]
      intro p hp hpq
      exact hq (List.mem_map.mpr ⟨p, hp, by simpa using hpq⟩)
    have hstep : dictInsert acc q.1 q.2 = acc ++ [q] := by
      unfold dictInsert
      rw [hfind]
      simp
    show rest.foldl (fun r q => dictInsert r q.1 q.2) (dictInsert acc q.1 q.2) =
      acc ++ q :: rest
    rw [hstep, ih (acc ++ [q]) (by simpa using hnd)]
    simp

/-! ## Lemmas about `pyIndex` -/

theorem pyIndex_lt (x : Str) (l : List Str) (h : x ∈ l) :
    pyIndex x l < l.length := by
  induction l with
  | nil => exact absurd h (List.not_mem_nil x)
  | cons y ys ih =>
    by_cases hy : y = x
    · simp [pyIndex, hy]
    · have hmem : x ∈ ys := by
        rcases List.mem_cons.mp h with h1 | h1
        · exact absurd h1.symm hy
        · exact h1
      have := ih hmem
      simp only [pyIndex, hy, if_false, List.length_cons]
      omega

theorem get_pyIndex (x : Str) (l : List Str) (h : x ∈ l) :
    l.get ⟨pyIndex x l, pyIndex_lt x l h⟩ = x := by
  induction l with
  | nil => exact absurd h (List.not_mem_nil x)
  | cons y ys ih =>
    by_cases hy : y = x
    · simp [pyIndex, hy]
    · have hmem : x ∈ ys := by
        rcases List.mem_cons.mp h with h1 | h1
        · exact absurd h1.symm hy
        · exact h1
      have harr : pyIndex x (y :: ys) = pyIndex x ys + 1 := by simp [pyIndex, hy]
      have := ih hmem
      simp only [List.get_eq_getElem] at this ⊢
      simp only [harr, List.getElem_cons_succ]
      exact this

theorem pyIndex_inj (x y : Str) (l : List Str) (hx : x ∈ l) (hy : y ∈ l)
    (h : pyIndex x l = pyIndex y l) : x = y := by
  have h1 := get_pyIndex x l hx
  have h2 := get_pyIndex y l hy
  rw [← h1, ← h2]
  congr 1
  exact Fin.ext h

theorem pyIndex_append_of_mem (x : Str) (l t : List Str) (h : x ∈ l) :
    pyIndex x (l ++ t) = pyIndex x l := by
  induction l with
  | nil => exact absurd h (List.not_mem_nil x)
  | cons y ys ih =>
    by_cases hy : y = x
    · simp [pyIndex, hy]
    · have hmem : x ∈ ys := by
        rcases List.mem_cons.mp h with h1 | h1
        · exact absurd h1.symm hy
        · exact h1
      simp [pyIndex, hy, ih hmem]

theorem pyIndex_le_of_get (x : Str) (l : List Str) (i : Nat)
    (h : i < l.length) (hg : l.get ⟨i, h⟩ = x) : pyIndex x l ≤ i := by
  induction l generalizing i with
  | nil => simp at h
  | cons y ys ih =>
    cases i with
    | zero =>
      simp at hg
      simp [pyIndex, hg]
    | succ n =>
      by_cases hy : y = x
      · simp [pyIndex, hy]
      · have := ih n (by simpa using h) (by simpa using hg)
        simp only [pyIndex, hy, if_false]
        omega

theorem pyIndex_get_of_nodup (l : List Str) (i : Nat) (h : i < l.length)
    (hnd : l.Nodup) : pyIndex (l.get ⟨i, h⟩) l = i := by
  have hmem : l.get ⟨i, h⟩ ∈ l := List.get_mem l i h
  have hlt := pyIndex_lt _ l hmem
  have hget : l.get ⟨pyIndex (l.get ⟨i, h⟩) l, hlt⟩ = l.get ⟨i, h⟩ :=
    get_pyIndex _ l hmem
  have hfin := (List.Nodup.get_inj_iff hnd).mp hget
  exact congrArg Fin.val hfin

/-! ## Lemmas about `List.getD` and `List.set` -/

theorem getD_eq_get {α : Type} (l : List α) (i : Nat) (d : α)
    (h : i < l.length) : l.getD i d = l.get ⟨i, h⟩ := by
  simp [List.getD_eq_getElem?_getD, List.getElem?_eq_getElem h]

theorem getD_set_self {α : Type} (l : List α) (i : Nat) (x d : α)
    (h : i < l.length) : (l.set i x).getD i d = x := by
  have hlen : i < (l.set i x).length := by simpa using h
  rw [getD_eq_get _ _ _ hlen]
  simp [List.get_eq_getElem, List.getElem_set_self]

theorem getD_set_ne {α : Type} (l : List α) (i j : Nat) (x d : α)
    (h : i ≠ j) : (l.set i x).getD j d = l.getD j d := by
  by_cases hj : j < l.length
  · have hlen : j < (l.set i x).length := by simpa using hj
    rw [getD_eq_get _ _ _ hlen, getD_eq_get _ _ _ hj]
    simp [List.get_eq_getElem, List.getElem_set_of_ne h]
  · have h1 : l.length ≤ j := Nat.le_of_not_lt hj
    rw [List.getD_eq_getElem?_getD, List.getD_eq_getElem?_getD,
      List.getElem?_eq_none (by simpa using h1), List.getElem?_eq_none h1]

/-! ## Lemmas about `pySorted` and column discovery -/

theorem mem_sortedInsert (x y : Str) (l : List Str) :
    x ∈ sortedInsert y l ↔ x = y ∨ x ∈ l := by
  induction l with
  | nil => simp [sortedInsert]
  | cons z zs ih =>
    by_cases hz : strLe z y
    · simp only [sortedInsert, hz, if_true, List.mem_cons, ih]
      tauto
    · have hrw : sortedInsert y (z :: zs) = y :: z :: zs := by
        simp [sortedInsert, hz]
      rw [hrw]
      simp [List.mem_cons]

theorem mem_pySorted (x : Str) (l : List Str) :
    x ∈ pySorted l ↔ x ∈ l := by
  induction l with
  | nil => simp [pySorted]
  | cons y ys ih =>
    simp only [pySorted, mem_sortedInsert, List.mem_cons, ih]

/-- The body of the "append a key if it is new" loop in `createColumns`. -/
def appendNew (cols : List Str) (k : Str) : List Str :=
  if k ∈ cols then cols else cols ++ [k]

theorem createColumns_eq_foldl (samples : List Rec) :
    createColumns samples =
      samples.foldl (fun cols s => (pySorted (keysOf s)).foldl appendNew cols)
        [S "sample_name", S "barcode_sequence"] := rfl

theorem foldl_appendNew_isPrefix (l : List Str) (init : List Str) :
    ∃ t, l.foldl appendNew init = init ++ t := by
  induction l generalizing init with
  | nil => exact ⟨[], by simp⟩
  | cons k rest ih =>
    simp only [List.foldl_cons]
    by_cases hk : k ∈ init
    · have hrw : appendNew init k = init := by simp [appendNew, hk]
      rw [hrw]; exact ih init
    · have hrw : appendNew init k = init ++ [k] := by simp [appendNew, hk]
      rw [hrw]
      rcases ih (init ++ [k]) with ⟨t, ht⟩
      exact ⟨[k] ++ t, by rw [ht, List.append_assoc]⟩

theorem mem_foldl_appendNew_of_mem_init (l : List Str) (init : List Str)
    (x : Str) (h : x ∈ init) : x ∈ l.foldl appendNew init := by
  rcases foldl_appendNew_isPrefix l init with ⟨t, ht⟩
  rw [ht]
  exact List.mem_append_left t h

theorem mem_foldl_appendNew_of_mem (l : List Str) (init : List Str)
    (x : Str) (h : x ∈ l) : x ∈ l.foldl appendNew init := by
  induction l generalizing init with
  | nil => exact absurd h (List.not_mem_nil x)
  | cons k rest ih =>
    simp only [List.foldl_cons]
    rcases List.mem_cons.mp h with rfl | hmem
    · apply mem_foldl_appendNew_of_mem_init
      by_cases hk : x ∈ init
      · simp [appendNew, hk]
      · simp [appendNew, hk]
    · exact ih _ hmem

theorem mem_foldl_appendNew (l : List Str) (init : List Str) (x : Str)
    (h : x ∈ l.foldl appendNew init) : x ∈ init ∨ x ∈ l := by
  induction l generalizing init with
  | nil => left; exact h
  | cons k rest ih =>
    rcases ih _ h with h1 | h1
    · unfold appendNew at h1
      by_cases hk : k ∈ init
      · rw [if_pos hk] at h1; left; exact h1
      · rw [if_neg hk] at h1
        rcases List.mem_append.mp h1 with h2 | h2
        · left; exact h2
        · right; simp at h2; simp [h2]
    · right; exact List.mem_cons_of_mem k h1

theorem nodup_foldl_appendNew (l : List Str) (init : List Str)
    (h : init.Nodup) : (l.foldl appendNew init).Nodup := by
  induction l generalizing init with
  | nil => exact h
  | cons k rest ih =>
    apply ih
    unfold appendNew
    by_cases hk : k ∈ init
    · simpa [hk]
    · simp [hk, List.nodup_append, h, List.disjoint_singleton, hk]

theorem createColumns_nodup (samples : List Rec) :
    (createColumns samples).Nodup := by
  rw [createColumns_eq_foldl]
  have : ([S "sample_name", S "barcode_sequence"] : List Str).Nodup := by decide
  generalize hinit : ([S "sample_name", S "barcode_sequence"] : List Str) = init at this
  clear hinit
  induction samples generalizing init with
  | nil => exact this
  | cons s rest ih => exact ih _ (nodup_foldl_appendNew _ _ this)

theorem createColumns_isPrefix (samples : List Rec) :
    ∃ t, createColumns samples = [S "sample_name", S "barcode_sequence"] ++ t := by
  rw [createColumns_eq_foldl]
  generalize ([S "sample_name", S "barcode_sequence"] : List Str) = init
  induction samples generalizing init with
  | nil => exact ⟨[], by simp⟩
  | cons s rest ih =>
    simp only [List.foldl_cons]
    rcases foldl_appendNew_isPrefix (pySorted (keysOf s)) init with ⟨t1, ht1⟩
    rw [ht1]
    rcases ih (init ++ t1) with ⟨t2, ht2⟩
    exact ⟨t1 ++ t2, by rw [ht2, List.append_assoc]⟩

theorem mem_colFold_of_mem_init (ss : List Rec) (init : List Str) (k : Str)
    (h : k ∈ init) :
    k ∈ ss.foldl (fun cols s => (pySorted (keysOf s)).foldl appendNew cols)
      init := by
  induction ss generalizing init with
  | nil => exact h
  | cons s rest ih =>
    exact ih _ (mem_foldl_appendNew_of_mem_init _ _ _ h)

theorem mem_createColumns_of_key (samples : List Rec) (r : Rec) (k : Str)
    (hr : r ∈ samples) (hk : k ∈ keysOf r) : k ∈ createColumns samples := by
  rw [createColumns_eq_foldl]
  generalize ([S "sample_name", S "barcode_sequence"] : List Str) = init
  induction samples generalizing init with
  | nil => exact absurd hr (List.not_mem_nil r)
  | cons s rest ih =>
    rcases List.mem_cons.mp hr with rfl | hmem
    · exact mem_colFold_of_mem_init rest _ k
        (mem_foldl_appendNew_of_mem _ init k ((mem_pySorted k _).mpr hk))
    · exact ih hmem _

theorem mem_createColumns (samples : List Rec) (k : Str)
    (h : k ∈ createColumns samples) :
    k = S "sample_name" ∨ k = S "barcode_sequence" ∨
      ∃ r ∈ samples, k ∈ keysOf r := by
  suffices hgen : ∀ (ss : List Rec) (init : List Str),
      k ∈ ss.foldl (fun cols s => (pySorted (keysOf s)).foldl appendNew cols)
        init → k ∈ init ∨ ∃ r ∈ ss, k ∈ keysOf r by
    rw [createColumns_eq_foldl] at h
    rcases hgen samples _ h with h1 | h1
    · rcases List.mem_cons.mp h1 with h2 | h2
      · left; exact h2
      · right; left; simpa using h2
    · right; right; exact h1
  intro ss
  induction ss with
  | nil => intro init hh; left; exact hh
  | cons s rest ih =>
    intro init hh
    rcases ih _ hh with h1 | ⟨r, hr, hkr⟩
    · rcases mem_foldl_appendNew _ _ _ h1 with h2 | h2
      · left; exact h2
      · right
        exact ⟨s, List.mem_cons_self _ _, (mem_pySorted k _).mp h2⟩
    · right; exact ⟨r, List.mem_cons_of_mem s hr, hkr⟩

/-! ## Concrete inputs used by the claim theorems -/

/-- A concrete run descriptor. -/
def cexRun : RunDesc := ⟨S "c", S "d", S "r", S "p", S "ra"⟩

/-- A concrete sample descriptor. -/
def cexSample : SampleDesc := ⟨S "S1", S "AGCT", S "GG", S "a1", S "r.1"⟩

/-- A one-record input whose `sample_name` value begins with the comment
marker. -/
def cexHashRecs : List Rec := [[(S "sample_name", S "#x")]]

/-- C9.  Parsing an empty line sequence fails at the header read (it does
not succeed with zero records): the Record Parser needs at least one input
line. -/
theorem parse_empty_input_fails :
    parse ([] : List Str) = .error .emptyInput ∧
      parse ([] : List Str) ≠ .ok [] := by
  constructor
  · rfl
  · intro h
    cases h

/-- C1 (code bug evidence).  On a run with one sample and no annotations,
`create_qiime` emits a header line with 3 tab-separated columns but a data
row with 4: the header names only the two `QIIME_FIELDS` identity columns
while the row carries name, barcode, primer and accession, so header and
rows misalign. -/
theorem qiime_header_row_mismatch :
    ((splitTab ((create_qiime cexRun [cexSample] []).getD 0 [])).length = 3 ∧
     (splitTab ((create_qiime cexRun [cexSample] []).getD 6 [])).length = 4) ∧
    (3 : Nat) ≠ 4 := by
  constructor
  · constructor <;> rfl
  · decide

/-- C2 (counterexample).  The round-trip claim fails as stated: a record
whose `sample_name` value starts with `"#"` serializes to a row that
`parse` skips as a comment, so one record in yields zero records out. -/
theorem registry_round_trip_cex :
    parse (create cexHashRecs) = .ok [] ∧ cexHashRecs.length = 1 := by
  constructor
  · rfl
  · rfl

theorem mem_zip_pos (ks vs : List Str) (p : Str × Str) (h : p ∈ ks.zip vs) :
    ∃ i, ∃ (hk : i < ks.length) (hv : i < vs.length),
      ks.get ⟨i, hk⟩ = p.1 ∧ vs.get ⟨i, hv⟩ = p.2 := by
  induction ks generalizing vs with
  | nil => simp at h
  | cons k kt ih =>
    cases vs with
    | nil => simp at h
    | cons v vt =>
      rw [List.zip_cons_cons] at h
      rcases List.mem_cons.mp h with rfl | hmem
      · exact ⟨0, by simp, by simp, rfl, rfl⟩
      · rcases ih vt hmem with ⟨i, hk, hv, h1, h2⟩
        exact ⟨i + 1, by simpa using hk, by simpa using hv, by simpa using h1,
          by simpa using h2⟩

/-- C8.  A data line that tokenizes into fewer values than there are header
keys parses without error: the record pairs each key with the value at the
same position, and trailing keys with no matching value are simply absent
from the record. -/
theorem parse_short_row (hl dl : Str)
    (hks : (tokenize (lstripHash hl)).any (fun k => k.isEmpty) = false)
    (hhash : startsWithHash dl = false)
    (hblank : pyStrip dl ≠ [])
    (_hshort : (tokenize dl).length < (tokenize (lstripHash hl)).length) :
    parse [hl, dl] = .ok [mkRecord (tokenize (lstripHash hl)) (tokenize dl)] ∧
    (∀ p ∈ mkRecord (tokenize (lstripHash hl)) (tokenize dl),
      ∃ i, ∃ (hk : i < (tokenize (lstripHash hl)).length)
        (hv : i < (tokenize dl).length),
        (tokenize (lstripHash hl)).get ⟨i, hk⟩ = p.1 ∧
        (tokenize dl).get ⟨i, hv⟩ = p.2) ∧
    ((tokenize (lstripHash hl)).Nodup →
      ∀ i (hi : i < (tokenize (lstripHash hl)).length),
        (tokenize dl).length ≤ i →
        pyLookup ((tokenize (lstripHash hl)).get ⟨i, hi⟩)
          (mkRecord (tokenize (lstripHash hl)) (tokenize dl)) = none) := by
  have hmem_zip : ∀ p ∈ mkRecord (tokenize (lstripHash hl)) (tokenize dl),
      p ∈ (tokenize (lstripHash hl)).zip (tokenize dl) := by
    intro p hp
    exact (List.mem_filter.mp (mem_pyDict p _ hp)).1
  refine ⟨?_, ?_, ?_⟩
  · simp [parse, parseLines, hks, hhash, hblank]
  · intro p hp
    exact mem_zip_pos _ _ p (hmem_zip p hp)
  · intro hnd i hi hvlen
    rw [pyLookup_eq_none]
    intro hkmem
    rcases List.mem_map.mp hkmem with ⟨p, hp, hpk⟩
    rcases mem_zip_pos _ _ p (hmem_zip p hp) with ⟨j, hjk, hjv, hj1, hj2⟩
    have hne : j ≠ i := fun hh => absurd hjv (by omega)
    have : (tokenize (lstripHash hl)).get ⟨j, hjk⟩ =
        (tokenize (lstripHash hl)).get ⟨i, hi⟩ := by
      rw [hj1, hpk]
    exact hne (congrArg Fin.val ((List.Nodup.get_inj_iff hnd).mp this))

/-- Witness for C8 at a concrete input: header with three keys, data line
with two values. -/
theorem parse_short_row_witness :
    parse [S "a\tb\tc", S "1\t2"] =
      .ok [[(S "a", S "1"), (S "b", S "2")]] := by
  have h := parse_short_row (S "a\tb\tc") (S "1\t2") (by rfl) (by rfl)
    (by decide) (by decide)
  rw [h.1]
  rfl

/-! ## C4: the Format Converter -/

theorem pyLookup_pyDel (k k0 : Str) (r : Rec) :
    pyLookup k (pyDel k0 r) = if k = k0 then none else pyLookup k r := by
  induction r with
  | nil => simp [pyDel, pyLookup]
  | cons p rest ih =>
    by_cases hp : p.1 = k0
    · have : pyDel k0 (p :: rest) = pyDel k0 rest := by
        simp [pyDel, hp]
      rw [this, ih]
      by_cases hk : k = k0
      · simp [hk]
      · rw [if_neg hk, if_neg hk, show p = (p.1, p.2) from rfl, pyLookup_cons,
          if_neg (by rw [hp]; exact fun hh => hk hh.symm)]
    · have : pyDel k0 (p :: rest) = p :: pyDel k0 rest := by
        simp [pyDel, hp]
      rw [this, show p = (p.1, p.2) from rfl, pyLookup_cons, pyLookup_cons, ih]
      by_cases hpk : p.1 = k
      · by_cases hk : k = k0
        · exact absurd (hpk.trans hk) hp
        · simp [hpk, hk]
      · simp [hpk]

theorem pyLookup_append_right (k : Str) (r t : Rec)
    (h : pyLookup k r = none) : pyLookup k (r ++ t) = pyLookup k t := by
  unfold pyLookup at h ⊢
  rw [List.find?_append]
  rcases hf : r.find? (fun p => p.1 = k) with _ | p
  · rw [hf]
    simp [Option.or]
  · rw [hf] at h
    simp at h

theorem pyLookup_append_left (k : Str) (r t : Rec) (v : Str)
    (h : pyLookup k r = some v) : pyLookup k (r ++ t) = some v := by
  unfold pyLookup at h ⊢
  rw [List.find?_append]
  rcases hf : r.find? (fun p => p.1 = k) with _ | p
  · rw [hf] at h; simp at h
  · rw [hf] at h
    rw [hf]
    simpa [Option.or] using h

theorem keysOf_pyDel (k0 : Str) (r : Rec) (k : Str) :
    k ∈ keysOf (pyDel k0 r) ↔ k ∈ keysOf r ∧ k ≠ k0 := by
  unfold pyDel keysOf
  constructor
  · intro h
    rcases List.mem_map.mp h with ⟨p, hp, hpk⟩
    have := List.mem_filter.mp hp
    refine ⟨List.mem_map.mpr ⟨p, this.1, hpk⟩, ?_⟩
    intro hk
    rw [← hpk] at hk
    simpa [hk] using this.2
  · intro ⟨h1, h2⟩
    rcases List.mem_map.mp h1 with ⟨p, hp, hpk⟩
    exact List.mem_map.mpr ⟨p, List.mem_filter.mpr ⟨hp, by simpa [hpk]⟩, hpk⟩

theorem keysOf_append_single (r : Rec) (c v k : Str) :
    k ∈ keysOf (r ++ [(c, v)]) ↔ k ∈ keysOf r ∨ k = c := by
  simp [keysOf]

theorem lookup_rename_some (q c v : Str) (r : Rec) (hqc : q ≠ c)
    (hc : c ∉ keysOf r) (k : Str) :
    pyLookup k (pyDel q r ++ [(c, v)]) =
      if k = q then none else if k = c then some v else pyLookup k r := by
  by_cases hkq : k = q
  · subst hkq
    rw [if_pos rfl,
      pyLookup_append_right _ _ _ (by rw [pyLookup_pyDel]; simp),
      pyLookup_cons, if_neg (fun hh : c = k => hqc hh.symm)]
    rfl
  · rw [if_neg hkq]
    by_cases hkc : k = c
    · subst hkc
      rw [if_pos rfl,
        pyLookup_append_right _ _ _
          (by rw [pyLookup_pyDel, if_neg (fun hh : k = q => hqc hh.symm)]
              exact (pyLookup_eq_none k r).mpr hc),
        pyLookup_cons]
      simp
    · rw [if_neg hkc]
      have hdel : pyLookup k (pyDel q r) = pyLookup k r := by
        rw [pyLookup_pyDel, if_neg hkq]
      rcases hk : pyLookup k r with _ | u
      · rw [pyLookup_append_right _ _ _ (hdel.trans hk), pyLookup_cons,
          if_neg (fun hh : c = k => hkc hh.symm)]
        rfl
      · exact pyLookup_append_left _ _ _ _ (hdel.trans hk)

/-- C4.  The Format Converter fails with `ConflictError` exactly when a
registry core field is already present in the record; otherwise it removes
`Description`, moves `SampleID` to `sample_name` and `BarcodeSequence` to
`barcode_sequence`, and leaves every other field unchanged. -/
theorem convert_from_qiime_spec (r : Rec) :
    (convertOne r = .error .conflict ↔
      S "sample_name" ∈ keysOf r ∨ S "barcode_sequence" ∈ keysOf r) ∧
    (S "sample_name" ∉ keysOf r → S "barcode_sequence" ∉ keysOf r →
      ∃ r2, convertOne r = .ok r2 ∧
        pyLookup (S "Description") r2 = none ∧
        pyLookup (S "SampleID") r2 = none ∧
        pyLookup (S "BarcodeSequence") r2 = none ∧
        pyLookup (S "sample_name") r2 = pyLookup (S "SampleID") r ∧
        pyLookup (S "barcode_sequence") r2 = pyLookup (S "BarcodeSequence") r ∧
        ∀ k, k ≠ S "Description" → k ≠ S "SampleID" →
          k ≠ S "BarcodeSequence" → k ≠ S "sample_name" →
          k ≠ S "barcode_sequence" → pyLookup k r2 = pyLookup k r) := by
  have hr0 : ∀ k,
      pyLookup k (if S "Description" ∈ keysOf r
        then pyDel (S "Description") r else r) =
      if k = S "Description" then none else pyLookup k r := by
    intro k
    by_cases hd : S "Description" ∈ keysOf r
    · rw [if_pos hd, pyLookup_pyDel]
    · rw [if_neg hd]
      by_cases hk : k = S "Description"
      · rw [if_pos hk, hk]
        exact (pyLookup_eq_none _ r).mpr hd
      · rw [if_neg hk]
  set r0 : Rec := if S "Description" ∈ keysOf r
      then pyDel (S "Description") r else r with hr0def
  have hconv : convertOne r = applyRenames QIIME_FIELDS r0 := rfl
  have hks0 : ∀ k, k ∈ keysOf r0 ↔ k ≠ S "Description" ∧ k ∈ keysOf r := by
    intro k
    rw [← pyLookup_isSome, hr0 k]
    by_cases hk : k = S "Description"
    · simp [hk]
    · rw [if_neg hk, pyLookup_isSome]
      simp [hk]
  have hstep : applyRenames QIIME_FIELDS r0 =
      if S "sample_name" ∈ keysOf r0 then .error .conflict
      else match pyLookup (S "SampleID") r0 with
        | some v => applyRenames [(S "BarcodeSequence", S "barcode_sequence")]
            (pyDel (S "SampleID") r0 ++ [(S "sample_name", v)])
        | none => applyRenames [(S "BarcodeSequence", S "barcode_sequence")] r0
      := rfl
  by_cases hsn : S "sample_name" ∈ keysOf r
  · have h0 : S "sample_name" ∈ keysOf r0 := (hks0 _).mpr ⟨by decide, hsn⟩
    have herr : convertOne r = .error .conflict := by
      rw [hconv, hstep, if_pos h0]
    refine ⟨⟨fun _ => Or.inl hsn, fun _ => herr⟩, fun hns _ => absurd hsn hns⟩
  · have h0 : S "sample_name" ∉ keysOf r0 := fun hh => hsn ((hks0 _).mp hh).2
    have hsid0 : pyLookup (S "SampleID") r0 = pyLookup (S "SampleID") r := by
      rw [hr0, if_neg (by decide : ¬ (S "SampleID" = S "Description"))]
    have hafter1 : ∃ r1,
        applyRenames QIIME_FIELDS r0 =
          applyRenames [(S "BarcodeSequence", S "barcode_sequence")] r1 ∧
        ∀ k, pyLookup k r1 =
          if k = S "SampleID" then none
          else if k = S "sample_name" then pyLookup (S "SampleID") r
          else if k = S "Description" then none
          else pyLookup k r := by
      rcases hsid : pyLookup (S "SampleID") r0 with _ | v
      · refine ⟨r0, by rw [hstep, if_neg h0, hsid], fun k => ?_⟩
        rw [hr0]
        by_cases h1 : k = S "SampleID"
        · subst h1
          rw [if_neg (by decide : ¬ (S "SampleID" = S "Description")),
            if_pos rfl, ← hsid0, hsid]
        · rw [if_neg h1]
          by_cases h2 : k = S "sample_name"
          · subst h2
            rw [if_neg (by decide : ¬ (S "sample_name" = S "Description")),
              if_pos rfl, ← hsid0, hsid]
            exact (pyLookup_eq_none _ r).mpr hsn
          · rw [if_neg h2]
      · refine ⟨pyDel (S "SampleID") r0 ++ [(S "sample_name", v)],
          by rw [hstep, if_neg h0, hsid], fun k => ?_⟩
        rw [lookup_rename_some _ _ _ _ (by decide) h0 k]
        by_cases h1 : k = S "SampleID"
        · rw [if_pos h1, if_pos h1]
        · rw [if_neg h1, if_neg h1]
          by_cases h2 : k = S "sample_name"
          · rw [if_pos h2, if_pos h2, ← hsid0, hsid]
          · rw [if_neg h2, if_neg h2, hr0]
    rcases hafter1 with ⟨r1, hr1eq, hr1⟩
    have hks1 : ∀ k, k ∈ keysOf r1 ↔
        (k ≠ S "SampleID" ∧ k ≠ S "Description" ∧
          ((k = S "sample_name" ∧ (pyLookup (S "SampleID") r).isSome = true) ∨
           (k ≠ S "sample_name" ∧ k ∈ keysOf r))) := by
      intro k
      rw [← pyLookup_isSome, hr1 k]
      by_cases h1 : k = S "SampleID"
      · simp [h1]
      · rw [if_neg h1]
        by_cases h2 : k = S "sample_name"
        · subst h2
          rw [if_pos rfl]
          constructor
          · intro hh
            exact ⟨by decide, by decide, Or.inl ⟨rfl, hh⟩⟩
          · rintro ⟨-, -, (⟨-, hh⟩ | ⟨hne, -⟩)⟩
            · exact hh
            · exact absurd rfl hne
        · rw [if_neg h2]
          by_cases h3 : k = S "Description"
          · simp [h3]
          · rw [if_neg h3, pyLookup_isSome]
            simp [h1, h2, h3]
    have hstep2 : applyRenames [(S "BarcodeSequence", S "barcode_sequence")] r1 =
        if S "barcode_sequence" ∈ keysOf r1 then .error .conflict
        else match pyLookup (S "BarcodeSequence") r1 with
          | some v => .ok (pyDel (S "BarcodeSequence") r1 ++
              [(S "barcode_sequence", v)])
          | none => .ok r1 := rfl
    have hbcs1 : pyLookup (S "BarcodeSequence") r1 =
        pyLookup (S "BarcodeSequence") r := by
      rw [hr1, if_neg (by decide : ¬ (S "BarcodeSequence" = S "SampleID")),
        if_neg (by decide : ¬ (S "BarcodeSequence" = S "sample_name")),
        if_neg (by decide : ¬ (S "BarcodeSequence" = S "Description"))]
    by_cases hbs : S "barcode_sequence" ∈ keysOf r
    · have h1 : S "barcode_sequence" ∈ keysOf r1 :=
        (hks1 _).mpr ⟨by decide, by decide, Or.inr ⟨by decide, hbs⟩⟩
      have herr : convertOne r = .error .conflict := by
        rw [hconv, hr1eq, hstep2, if_pos h1]
      exact ⟨⟨fun _ => Or.inr hbs, fun _ => herr⟩, fun _ hnb => absurd hbs hnb⟩
    · have h1 : S "barcode_sequence" ∉ keysOf r1 := by
        intro hh
        rcases ((hks1 _).mp hh).2.2 with ⟨h2, _⟩ | ⟨_, h2⟩
        · exact absurd h2 (by decide)
        · exact hbs h2
      have hafter2 : ∃ r2, convertOne r = .ok r2 ∧
          ∀ k, pyLookup k r2 =
            if k = S "BarcodeSequence" then none
            else if k = S "barcode_sequence" then pyLookup (S "BarcodeSequence") r
            else if k = S "SampleID" then none
            else if k = S "sample_name" then pyLookup (S "SampleID") r
            else if k = S "Description" then none
            else pyLookup k r := by
        rcases hbcs : pyLookup (S "BarcodeSequence") r1 with _ | w
        · refine ⟨r1, by rw [hconv, hr1eq, hstep2, if_neg h1, hbcs], fun k => ?_⟩
          rw [hr1]
          by_cases hb1 : k = S "BarcodeSequence"
          · subst hb1
            rw [if_pos rfl,
              if_neg (by decide : ¬ (S "BarcodeSequence" = S "SampleID")),
              if_neg (by decide : ¬ (S "BarcodeSequence" = S "sample_name")),
              if_neg (by decide : ¬ (S "BarcodeSequence" = S "Description")),
              ← hbcs1, hbcs]
          · rw [if_neg hb1]
            by_cases hb2 : k = S "barcode_sequence"
            · subst hb2
              rw [if_pos rfl,
                if_neg (by decide : ¬ (S "barcode_sequence" = S "SampleID")),
                if_neg (by decide : ¬ (S "barcode_sequence" = S "sample_name")),
                if_neg (by decide : ¬ (S "barcode_sequence" = S "Description"))]
              rw [(pyLookup_eq_none _ r).mpr hbs, ← hbcs1, hbcs]
            · rw [if_neg hb2]
        · refine ⟨pyDel (S "BarcodeSequence") r1 ++ [(S "barcode_sequence", w)],
            by rw [hconv, hr1eq, hstep2, if_neg h1, hbcs], fun k => ?_⟩
          rw [lookup_rename_some _ _ _ _ (by decide) h1 k]
          by_cases hb1 : k = S "BarcodeSequence"
          · rw [if_pos hb1, if_pos hb1]
          · rw [if_neg hb1, if_neg hb1]
            by_cases hb2 : k = S "barcode_sequence"
            · rw [if_pos hb2, if_pos hb2, ← hbcs1, hbcs]
            · rw [if_neg hb2, if_neg hb2, hr1]
      rcases hafter2 with ⟨r2, hok, hr2⟩
      refine ⟨⟨fun herr => ?_, fun hor => ?_⟩, fun _ _ => ?_⟩
      · rw [hok] at herr
        cases herr
      · rcases hor with h2 | h2
        · exact absurd h2 hsn
        · exact absurd h2 hbs
      · refine ⟨r2, hok, ?_, ?_, ?_, ?_, ?_, ?_⟩
        · rw [hr2,
            if_neg (by decide : ¬ (S "Description" = S "BarcodeSequence")),
            if_neg (by decide : ¬ (S "Description" = S "barcode_sequence")),
            if_neg (by decide : ¬ (S "Description" = S "SampleID")),
            if_neg (by decide : ¬ (S "Description" = S "sample_name")),
            if_pos rfl]
        · rw [hr2,
            if_neg (by decide : ¬ (S "SampleID" = S "BarcodeSequence")),
            if_neg (by decide : ¬ (S "SampleID" = S "barcode_sequence")),
            if_pos rfl]
        · rw [hr2, if_pos rfl]
        · rw [hr2,
            if_neg (by decide : ¬ (S "sample_name" = S "BarcodeSequence")),
            if_neg (by decide : ¬ (S "sample_name" = S "barcode_sequence")),
            if_neg (by decide : ¬ (S "sample_name" = S "SampleID")),
            if_pos rfl]
        · rw [hr2,
            if_neg (by decide : ¬ (S "barcode_sequence" = S "BarcodeSequence")),
            if_pos rfl]
        · intro k hk1 hk2 hk3 hk4 hk5
          rw [hr2, if_neg hk3, if_neg hk5, if_neg hk2, if_neg hk4, if_neg hk1]

/-- Witness for C4: the record `{"SampleID": "S1", "sample_name": "S1"}`
is rejected with a conflict. -/
theorem convert_from_qiime_spec_witness :
    convertOne [(S "SampleID", S "S1"), (S "sample_name", S "S1")] =
      .error .conflict :=
  (convert_from_qiime_spec
    [(S "SampleID", S "S1"), (S "sample_name", S "S1")]).1.mpr
    (Or.inl (by decide))

instance exceptDecEq {ε α : Type} [DecidableEq ε] [DecidableEq α] :
    DecidableEq (Except ε α) := fun x y =>
  match x, y with
  | .error e1, .error e2 =>
    if h : e1 = e2 then isTrue (by rw [h])
    else isFalse (by intro hh; cases hh; exact h rfl)
  | .error _, .ok _ => isFalse (by intro hh; cases hh)
  | .ok _, .error _ => isFalse (by intro hh; cases hh)
  | .ok a1, .ok a2 =>
    if h : a1 = a2 then isTrue (by rw [h])
    else isFalse (by intro hh; cases hh; exact h rfl)

/-! ## C6: character validation -/

theorem checkChars_ok_or (r : Rec) :
    checkChars r = .ok () ∨ checkChars r = .error .invalidCharacter := by
  unfold checkChars
  split
  · right; rfl
  · left; rfl

theorem checkChars_error_iff (r : Rec) :
    checkChars r = .error .invalidCharacter ↔
      ∃ kc ∈ ALLOWED_CHARS, ∃ v, pyLookup kc.1 r = some v ∧
        ¬ (∀ c ∈ v, c ∈ kc.2) := by
  unfold checkChars
  split
  case _ kc heq =>
    have hmem := List.mem_of_find?_eq_some heq
    have hp := List.find?_some heq
    constructor
    · intro _
      rcases hv : pyLookup kc.1 r with _ | v
      · rw [hv] at hp
        cases hp
      · rw [hv] at hp
        have hp2 : (!(v.all (fun ch => kc.2.contains ch))) = true := hp
        refine ⟨kc, hmem, v, hv, fun hall => ?_⟩
        have hall2 : v.all (fun ch => kc.2.contains ch) = true :=
          List.all_eq_true.mpr (fun c hc => List.elem_iff.mpr (hall c hc))
        rw [hall2] at hp2
        cases hp2
    · intro _
      rfl
  case _ heq =>
    constructor
    · intro hh
      cases hh
    · rintro ⟨kc, hmem, v, hv, hnall⟩
      exfalso
      have hfn := List.find?_eq_none.mp heq kc hmem
      rw [hv] at hfn
      have hfn2 : ¬ ((!(v.all (fun ch => kc.2.contains ch))) = true) := hfn
      apply hnall
      intro c hc
      have hall : v.all (fun ch => kc.2.contains ch) = true := by
        rcases ha : v.all (fun ch => kc.2.contains ch) with _ | _
        · exact absurd (by rw [ha]; rfl) hfn2
        · rfl
      exact List.elem_iff.mp (List.all_eq_true.mp hall c hc)

/-- C6.  A single-record validation pass raises `InvalidCharacterError` if
and only if some constrained field present in the record has a value with a
character outside that field's allowed set. -/
theorem validate_invalid_char_iff (r : Rec) :
    validate [r] = .error .invalidCharacter ↔
      ∃ kc ∈ ALLOWED_CHARS, ∃ v, pyLookup kc.1 r = some v ∧
        ¬ (∀ c ∈ v, c ∈ kc.2) := by
  rw [← checkChars_error_iff]
  rcases checkChars_ok_or r with hok | herr
  · have hne : validate [r] ≠ .error .invalidCharacter := by
      intro hh
      rcases hn : pyLookup (S "sample_name") r with _ | n <;>
        simp [validate, validateAux, hok, hn] at hh
    constructor
    · intro hh
      exact absurd hh hne
    · intro hh
      rw [hok] at hh
      cases hh
  · have heq : validate [r] = .error .invalidCharacter := by
      unfold validate validateAux
      rw [herr]
    rw [heq, herr]

/-- Witness for C6: `barcode_sequence = "AGCN"` is rejected (`N` is not in
`{A,G,C,T}`), while `"AGCT"` passes. -/
theorem validate_invalid_char_iff_witness :
    validate [[(S "sample_name", S "s"), (S "barcode_sequence", S "AGCN")]] =
      .error .invalidCharacter ∧
    validate [[(S "sample_name", S "s"), (S "barcode_sequence", S "AGCT")]] ≠
      .error .invalidCharacter := by
  constructor
  · exact (validate_invalid_char_iff _).mpr
      ⟨(S "barcode_sequence", S "AGCT"), by decide, S "AGCN", by decide,
        by decide⟩
  · intro hh
    have hgood : validate
        [[(S "sample_name", S "s"), (S "barcode_sequence", S "AGCT")]] =
        .ok () := rfl
    rw [hgood] at hh
    cases hh

/-! ## C5: duplicate detection -/

theorem validateAux_dup_iff (recs : List Rec) :
    ∀ (seenN seenB : List Str),
    (∀ r ∈ recs, checkChars r = .ok ()) →
    (∀ r ∈ recs, ∃ n, pyLookup (S "sample_name") r = some n) →
    seenN.Nodup → seenB.Nodup →
    (validateAux seenN seenB recs = .error .duplicate ↔
      ¬ (seenN ++
          recs.map (fun r => (pyLookup (S "sample_name") r).getD [])).Nodup ∨
      ¬ (seenB ++
          recs.map (fun r =>
            (pyLookup (S "barcode_sequence") r).getD [])).Nodup) := by
  induction recs with
  | nil =>
    intro seenN seenB _ _ hndN hndB
    constructor
    · intro hh
      cases hh
    · rintro (hh | hh)
      · exact absurd (by simpa using hndN) hh
      · exact absurd (by simpa using hndB) hh
  | cons r rs ih =>
    intro seenN seenB hchar hname hndN hndB
    have hcr : checkChars r = .ok () := hchar r (List.mem_cons_self _ _)
    rcases hname r (List.mem_cons_self _ _) with ⟨n, hn⟩
    have hgetn : (pyLookup (S "sample_name") r).getD [] = n := by
      rw [hn]
      rfl
    simp only [validateAux, hcr, hn]
    set b := (pyLookup (S "barcode_sequence") r).getD [] with hbdef
    by_cases hnn : n ∈ seenN
    · rw [if_pos hnn]
      constructor
      · intro _
        left
        intro hnd
        rw [List.map_cons, hgetn] at hnd
        exact (List.nodup_append.mp hnd).2.2 hnn (List.mem_cons_self _ _)
      · intro _
        rfl
    · rw [if_neg hnn]
      by_cases hbb : b ∈ seenB
      · rw [if_pos hbb]
        constructor
        · intro _
          right
          intro hnd
          rw [List.map_cons] at hnd
          exact (List.nodup_append.mp hnd).2.2 hbb (List.mem_cons_self _ _)
        · intro _
          rfl
      · rw [if_neg hbb]
        have hih := ih (n :: seenN) (b :: seenB)
          (fun x hx => hchar x (List.mem_cons_of_mem r hx))
          (fun x hx => hname x (List.mem_cons_of_mem r hx))
          (by simp [hnn, hndN])
          (by simp [hbb, hndB])
        rw [hih]
        have hpermN : ((n :: seenN) ++
            rs.map (fun x => (pyLookup (S "sample_name") x).getD [])).Nodup ↔
            (seenN ++ (r :: rs).map
              (fun x => (pyLookup (S "sample_name") x).getD [])).Nodup := by
          rw [List.map_cons, hgetn]
          exact (List.Perm.nodup_iff List.perm_middle).symm
        have hpermB : ((b :: seenB) ++
            rs.map (fun x =>
              (pyLookup (S "barcode_sequence") x).getD [])).Nodup ↔
            (seenB ++ (r :: rs).map (fun x =>
              (pyLookup (S "barcode_sequence") x).getD [])).Nodup := by
          rw [List.map_cons]
          exact (List.Perm.nodup_iff List.perm_middle).symm
        rw [hpermN, hpermB]

/-- C5.  On records that pass the character check and carry a
`sample_name`, `validate` raises `DuplicateError` exactly when a sample
name repeats within the pass or when the barcode value (empty string when
`barcode_sequence` is absent) repeats within the pass. -/
theorem validate_duplicate_iff (recs : List Rec)
    (hchar : ∀ r ∈ recs, checkChars r = .ok ())
    (hname : ∀ r ∈ recs, ∃ n, pyLookup (S "sample_name") r = some n) :
    validate recs = .error .duplicate ↔
      ¬ (recs.map (fun r => (pyLookup (S "sample_name") r).getD [])).Nodup ∨
      ¬ (recs.map (fun r =>
          (pyLookup (S "barcode_sequence") r).getD [])).Nodup := by
  have := validateAux_dup_iff recs [] [] hchar hname List.nodup_nil
    List.nodup_nil
  simpa [validate] using this

/-- Witness for C5: two records with distinct sample names but both lacking
`barcode_sequence` collide on the empty-string barcode, and two records
sharing `sample_name = "S1"` collide on the name. -/
theorem validate_duplicate_iff_witness :
    validate [[(S "sample_name", S "a")], [(S "sample_name", S "b")]] =
      .error .duplicate ∧
    validate [[(S "sample_name", S "S1"), (S "barcode_sequence", S "AAAA")],
              [(S "sample_name", S "S1"), (S "barcode_sequence", S "CCCC")]] =
      .error .duplicate := by
  constructor
  · exact (validate_duplicate_iff _ (by decide)
      (by intro r hr; fin_cases hr <;> exact ⟨_, rfl⟩)).mpr
      (Or.inr (by decide))
  · exact (validate_duplicate_iff _ (by decide)
      (by intro r hr; fin_cases hr <;> exact ⟨_, rfl⟩)).mpr
      (Or.inl (by decide))

/-! ## C3, C7, C10: the EAV Caster -/

theorem castStep_skip (accs : List Str) (st : List Str × List (List Str))
    (t : Str × Str × Str) (h : t.1 ∉ accs) : castStep accs st t = st := by
  simp [castStep, h]

theorem castStep_desc (accs : List Str) (st : List Str × List (List Str))
    (t : Str × Str × Str) (h : t.1 ∈ accs)
    (hd : pyLower t.2.1 = S "description") : castStep accs st t = st := by
  simp [castStep, h, hd]

theorem castStep_old_field (accs : List Str) (st : List Str × List (List Str))
    (t : Str × Str × Str) (h : t.1 ∈ accs)
    (hd : ¬ pyLower t.2.1 = S "description") (hf : t.2.1 ∈ st.1) :
    castStep accs st t =
      (st.1, st.2.set (pyIndex t.1 accs)
        ((st.2.getD (pyIndex t.1 accs) []).set (pyIndex t.2.1 st.1) t.2.2)) := by
  simp [castStep, h, hd, hf]

theorem castStep_new_field (accs : List Str) (st : List Str × List (List Str))
    (t : Str × Str × Str) (h : t.1 ∈ accs)
    (hd : ¬ pyLower t.2.1 = S "description") (hf : t.2.1 ∉ st.1) :
    castStep accs st t =
      (st.1 ++ [t.2.1],
        (st.2.map (fun r => r ++ [S "NA"])).set (pyIndex t.1 accs)
          (((st.2.map (fun r => r ++ [S "NA"])).getD (pyIndex t.1 accs) []).set
            (pyIndex t.2.1 (st.1 ++ [t.2.1])) t.2.2)) := by
  simp [castStep, h, hd, hf]

/-- The invariant maintained by the annotation loop of `_cast`: one row per
accession, rows aligned to the field list, duplicate-free fields, no
`description` field, and every non-`"NA"` cell traceable to a matched
annotation triple. -/
def CastInv (accs : List Str) (anns : List (Str × Str × Str))
    (st : List Str × List (List Str)) : Prop :=
  st.2.length = accs.length ∧
  (∀ row ∈ st.2, row.length = st.1.length) ∧
  st.1.Nodup ∧
  (∀ f ∈ st.1, pyLower f ≠ S "description") ∧
  (∀ row ∈ st.2, ∀ cell ∈ row,
    cell = S "NA" ∨ ∃ t ∈ anns, t.1 ∈ accs ∧ t.2.2 = cell)

theorem castStep_inv (accs : List Str) (anns : List (Str × Str × Str))
    (st : List Str × List (List Str)) (t : Str × Str × Str)
    (ht : t ∈ anns) (hinv : CastInv accs anns st) :
    CastInv accs anns (castStep accs st t) := by
  obtain ⟨hlen, hrow, hnd, hdesc, hcell⟩ := hinv
  by_cases h1 : t.1 ∈ accs
  · by_cases h2 : pyLower t.2.1 = S "description"
    · rw [castStep_desc accs st t h1 h2]
      exact ⟨hlen, hrow, hnd, hdesc, hcell⟩
    · have hidx : pyIndex t.1 accs < st.2.length := by
        rw [hlen]
        exact pyIndex_lt _ _ h1
      by_cases h3 : t.2.1 ∈ st.1
      · rw [castStep_old_field accs st t h1 h2 h3]
        have hnewrow :
            ((st.2.getD (pyIndex t.1 accs) []).set (pyIndex t.2.1 st.1)
              t.2.2).length = st.1.length := by
          rw [List.length_set, getD_eq_get _ _ _ hidx]
          exact hrow _ (List.get_mem _ _ _)
        refine ⟨by simpa using hlen, ?_, hnd, hdesc, ?_⟩
        · intro row hmem
          rcases List.mem_or_eq_of_mem_set hmem with hold | hnew
          · exact hrow row hold
          · rw [hnew]
            exact hnewrow
        · intro row hmem cell hcmem
          rcases List.mem_or_eq_of_mem_set hmem with hold | hnew
          · exact hcell row hold cell hcmem
          · rw [hnew] at hcmem
            rcases List.mem_or_eq_of_mem_set hcmem with hcold | hcnew
            · refine hcell _ ?_ cell hcold
              rw [getD_eq_get _ _ _ hidx]
              exact List.get_mem _ _ _
            · right
              exact ⟨t, ht, h1, hcnew.symm⟩
      · rw [castStep_new_field accs st t h1 h2 h3]
        have hpadlen : (st.2.map (fun r => r ++ [S "NA"])).length =
            accs.length := by simpa using hlen
        have hidx2 : pyIndex t.1 accs <
            (st.2.map (fun r => r ++ [S "NA"])).length := by
          rw [hpadlen]
          exact pyIndex_lt _ _ h1
        have hpadrow : ∀ row ∈ st.2.map (fun r => r ++ [S "NA"]),
            row.length = (st.1 ++ [t.2.1]).length := by
          intro row hmem
          rcases List.mem_map.mp hmem with ⟨r0, hr0, hre⟩
          rw [← hre]
          simp [hrow r0 hr0]
        have hpadcell : ∀ row ∈ st.2.map (fun r => r ++ [S "NA"]),
            ∀ cell ∈ row,
            cell = S "NA" ∨ ∃ t ∈ anns, t.1 ∈ accs ∧ t.2.2 = cell := by
          intro row hmem cell hcmem
          rcases List.mem_map.mp hmem with ⟨r0, hr0, hre⟩
          rw [← hre] at hcmem
          rcases List.mem_append.mp hcmem with hc1 | hc1
          · exact hcell r0 hr0 cell hc1
          · left
            simpa using hc1
        have hnewrow :
            (((st.2.map (fun r => r ++ [S "NA"])).getD (pyIndex t.1 accs)
              []).set (pyIndex t.2.1 (st.1 ++ [t.2.1])) t.2.2).length =
            (st.1 ++ [t.2.1]).length := by
          rw [List.length_set, getD_eq_get _ _ _ hidx2]
          exact hpadrow _ (List.get_mem _ _ _)
        refine ⟨by simpa using hlen, ?_, ?_, ?_, ?_⟩
        · intro row hmem
          rcases List.mem_or_eq_of_mem_set hmem with hold | hnew
          · exact hpadrow row hold
          · rw [hnew]
            exact hnewrow
        · simp [List.nodup_append, hnd, h3]
        · intro f hf
          rcases List.mem_append.mp hf with hf1 | hf1
          · exact hdesc f hf1
          · have : f = t.2.1 := by simpa using hf1
            rw [this]
            exact h2
        · intro row hmem cell hcmem
          rcases List.mem_or_eq_of_mem_set hmem with hold | hnew
          · exact hpadcell row hold cell hcmem
          · rw [hnew] at hcmem
            rcases List.mem_or_eq_of_mem_set hcmem with hcold | hcnew
            · refine hpadcell _ ?_ cell hcold
              rw [getD_eq_get _ _ _ hidx2]
              exact List.get_mem _ _ _
            · right
              exact ⟨t, ht, h1, hcnew.symm⟩
  · rw [castStep_skip accs st t h1]
    exact ⟨hlen, hrow, hnd, hdesc, hcell⟩

theorem cast_foldl_inv (accs : List Str) (anns : List (Str × Str × Str))
    (l : List (Str × Str × Str)) :
    ∀ (st : List Str × List (List Str)), (∀ t ∈ l, t ∈ anns) →
    CastInv accs anns st →
    CastInv accs anns (l.foldl (castStep accs) st) := by
  induction l with
  | nil => intro st _ hinv; exact hinv
  | cons t rest ih =>
    intro st hsub hinv
    exact ih _ (fun x hx => hsub x (List.mem_cons_of_mem t hx))
      (castStep_inv accs anns st t (hsub t (List.mem_cons_self _ _)) hinv)

theorem cast_eav_inv (samples : List SampleDesc)
    (anns : List (Str × Str × Str)) :
    CastInv (samples.map (fun s => s.accession)) anns
      (cast_eav samples anns) := by
  apply cast_foldl_inv _ _ _ _ (fun t ht => ht)
  refine ⟨by simp, ?_, List.nodup_nil, ?_, ?_⟩
  · intro row hmem
    rcases List.mem_map.mp hmem with ⟨s, _, hre⟩
    rw [← hre]
  · intro f hf
    exact absurd hf (List.not_mem_nil f)
  · intro row hmem cell hcmem
    rcases List.mem_map.mp hmem with ⟨s, _, hre⟩
    rw [← hre] at hcmem
    exact absurd hcmem (List.not_mem_nil cell)

/-- C3.  EAV Caster alignment: one output row per sample; every row has the
length of the discovered field list (even for samples with no annotations);
every cell is `"NA"` or the value of a triple whose accession is in the
sample list; and no field lowercasing to `"description"` appears. -/
theorem cast_alignment (samples : List SampleDesc)
    (anns : List (Str × Str × Str)) :
    (cast_eav samples anns).2.length = samples.length ∧
    (∀ row ∈ (cast_eav samples anns).2,
      row.length = (cast_eav samples anns).1.length) ∧
    (∀ row ∈ (cast_eav samples anns).2, ∀ cell ∈ row,
      cell = S "NA" ∨ ∃ t ∈ anns,
        t.1 ∈ samples.map (fun s => s.accession) ∧ t.2.2 = cell) ∧
    (∀ f ∈ (cast_eav samples anns).1, pyLower f ≠ S "description") := by
  obtain ⟨hlen, hrow, _, hdesc, hcell⟩ := cast_eav_inv samples anns
  exact ⟨by simpa using hlen, hrow, hcell, hdesc⟩

/-- Witness for C3 at a concrete input: two samples, one annotation for the
first; the second row is still a full-length row. -/
theorem cast_alignment_witness :
    (cast_eav [cexSample] [(S "a1", S "x", S "1")]).2.length = 1 ∧
    ∀ row ∈ (cast_eav [cexSample] [(S "a1", S "x", S "1")]).2,
      row.length = (cast_eav [cexSample] [(S "a1", S "x", S "1")]).1.length := by
  have h := cast_alignment [cexSample] [(S "a1", S "x", S "1")]
  exact ⟨h.1, h.2.1⟩

theorem getD_append_left {α : Type} (l t : List α) (j : Nat) (d : α)
    (h : j < l.length) : (l ++ t).getD j d = l.getD j d := by
  have h2 : j < (l ++ t).length := by
    rw [List.length_append]
    omega
  rw [getD_eq_get _ _ _ h2, getD_eq_get _ _ _ h]
  simp only [List.get_eq_getElem]
  exact List.getElem_append_left h

theorem getD_map_pad (rows : List (List Str)) (g : List Str → List Str)
    (j : Nat) (h : j < rows.length) :
    (rows.map g).getD j [] = g (rows.get ⟨j, h⟩) := by
  have h2 : j < (rows.map g).length := by simpa using h
  rw [getD_eq_get _ _ _ h2]
  simp [List.get_eq_getElem, List.getElem_map]

theorem castStep_cell (accs : List Str) (anns : List (Str × Str × Str))
    (a f v : Str) (st : List Str × List (List Str)) (t : Str × Str × Str)
    (ha : a ∈ accs) (hinv : CastInv accs anns st)
    (hf : f ∈ st.1)
    (hcv : (st.2.getD (pyIndex a accs) []).getD (pyIndex f st.1) (S "NA") = v)
    (hnot : ¬ (t.1 = a ∧ t.2.1 = f)) :
    f ∈ (castStep accs st t).1 ∧
      ((castStep accs st t).2.getD (pyIndex a accs) []).getD
        (pyIndex f (castStep accs st t).1) (S "NA") = v := by
  obtain ⟨hlen, hrow, hnd, _, _⟩ := hinv
  by_cases h1 : t.1 ∈ accs
  · by_cases h2 : pyLower t.2.1 = S "description"
    · rw [castStep_desc accs st t h1 h2]
      exact ⟨hf, hcv⟩
    · have hiA : pyIndex a accs < st.2.length := by
        rw [hlen]
        exact pyIndex_lt _ _ ha
      have hjF : pyIndex f st.1 < st.1.length := pyIndex_lt _ _ hf
      by_cases h3 : t.2.1 ∈ st.1
      · rw [castStep_old_field accs st t h1 h2 h3]
        refine ⟨hf, ?_⟩
        by_cases h4 : t.1 = a
        · have hne : pyIndex t.2.1 st.1 ≠ pyIndex f st.1 := by
            intro hh
            exact hnot ⟨h4, pyIndex_inj _ _ _ h3 hf hh⟩
          rw [h4, getD_set_self _ _ _ _ hiA, getD_set_ne _ _ _ _ _ hne]
          exact hcv
        · have hne : pyIndex t.1 accs ≠ pyIndex a accs := by
            intro hh
            exact h4 (pyIndex_inj _ _ _ h1 ha hh)
          rw [getD_set_ne _ _ _ _ _ hne]
          exact hcv
      · rw [castStep_new_field accs st t h1 h2 h3]
        have hfmem : f ∈ st.1 ++ [t.2.1] := List.mem_append_left _ hf
        have hidx : pyIndex f (st.1 ++ [t.2.1]) = pyIndex f st.1 :=
          pyIndex_append_of_mem _ _ _ hf
        have hpadA : (st.2.map (fun r => r ++ [S "NA"])).getD
            (pyIndex a accs) [] = st.2.get ⟨pyIndex a accs, hiA⟩ ++ [S "NA"] :=
          getD_map_pad _ _ _ hiA
        have hrowA : (st.2.get ⟨pyIndex a accs, hiA⟩).length = st.1.length :=
          hrow _ (List.get_mem _ _ _)
        have hgetD_A : st.2.getD (pyIndex a accs) [] =
            st.2.get ⟨pyIndex a accs, hiA⟩ := getD_eq_get _ _ _ hiA
        refine ⟨hfmem, ?_⟩
        rw [hidx]
        by_cases h4 : t.1 = a
        · have hne : pyIndex t.2.1 (st.1 ++ [t.2.1]) ≠ pyIndex f st.1 := by
            intro hh
            apply hnot
            refine ⟨h4, ?_⟩
            have hmt : t.2.1 ∈ st.1 ++ [t.2.1] := by simp
            rw [← hidx] at hh
            exact pyIndex_inj _ _ _ hmt hfmem hh
          rw [h4, getD_set_self _ _ _ _ (by rw [List.length_map]; exact hiA),
            getD_set_ne _ _ _ _ _ hne, hpadA,
            getD_append_left _ _ _ _ (by rw [hrowA]; exact hjF), ← hgetD_A]
          exact hcv
        · have hne : pyIndex t.1 accs ≠ pyIndex a accs := by
            intro hh
            exact h4 (pyIndex_inj _ _ _ h1 ha hh)
          rw [getD_set_ne _ _ _ _ _ hne, hpadA,
            getD_append_left _ _ _ _ (by rw [hrowA]; exact hjF), ← hgetD_A]
          exact hcv
  · rw [castStep_skip accs st t h1]
    exact ⟨hf, hcv⟩

theorem castStep_set_cell (accs : List Str) (anns : List (Str × Str × Str))
    (a f v : Str) (st : List Str × List (List Str))
    (ha : a ∈ accs) (hd : ¬ pyLower f = S "description")
    (hinv : CastInv accs anns st) :
    f ∈ (castStep accs st (a, f, v)).1 ∧
      ((castStep accs st (a, f, v)).2.getD (pyIndex a accs) []).getD
        (pyIndex f (castStep accs st (a, f, v)).1) (S "NA") = v := by
  obtain ⟨hlen, hrow, hnd, _, _⟩ := hinv
  have hiA : pyIndex a accs < st.2.length := by
    rw [hlen]
    exact pyIndex_lt _ _ ha
  by_cases h3 : f ∈ st.1
  · rw [castStep_old_field accs st (a, f, v) ha hd h3]
    refine ⟨h3, ?_⟩
    have hjF : pyIndex f st.1 < (st.2.getD (pyIndex a accs) []).length := by
      rw [getD_eq_get _ _ _ hiA, hrow _ (List.get_mem _ _ _)]
      exact pyIndex_lt _ _ h3
    rw [getD_set_self _ _ _ _ hiA, getD_set_self _ _ _ _ hjF]
  · rw [castStep_new_field accs st (a, f, v) ha hd h3]
    have hfmem : f ∈ st.1 ++ [f] := by simp
    refine ⟨hfmem, ?_⟩
    have hiA2 : pyIndex a accs < (st.2.map (fun r => r ++ [S "NA"])).length := by
      simpa using hiA
    have hjF : pyIndex f (st.1 ++ [f]) <
        ((st.2.map (fun r => r ++ [S "NA"])).getD (pyIndex a accs) []).length := by
      rw [getD_map_pad _ _ _ hiA]
      have := pyIndex_lt _ _ hfmem
      have hr := hrow _ (List.get_mem st.2 (pyIndex a accs) hiA)
      simp only [List.length_append, List.length_cons, List.length_nil] at this ⊢
      omega
    rw [getD_set_self _ _ _ _ hiA2, getD_set_self _ _ _ _ hjF]

theorem cast_foldl_cell (accs : List Str) (anns : List (Str × Str × Str))
    (a f v : Str) (ha : a ∈ accs) (l : List (Str × Str × Str)) :
    ∀ (st : List Str × List (List Str)), (∀ t ∈ l, t ∈ anns) →
    (∀ t ∈ l, ¬ (t.1 = a ∧ t.2.1 = f)) →
    CastInv accs anns st → f ∈ st.1 →
    (st.2.getD (pyIndex a accs) []).getD (pyIndex f st.1) (S "NA") = v →
    f ∈ (l.foldl (castStep accs) st).1 ∧
      ((l.foldl (castStep accs) st).2.getD (pyIndex a accs) []).getD
        (pyIndex f (l.foldl (castStep accs) st).1) (S "NA") = v := by
  induction l with
  | nil => intro st _ _ _ hf hcv; exact ⟨hf, hcv⟩
  | cons t rest ih =>
    intro st hsub hnot hinv hf hcv
    have hstep := castStep_cell accs anns a f v st t ha hinv hf hcv
      (hnot t (List.mem_cons_self _ _))
    exact ih _ (fun x hx => hsub x (List.mem_cons_of_mem t hx))
      (fun x hx => hnot x (List.mem_cons_of_mem t hx))
      (castStep_inv accs anns st t (hsub t (List.mem_cons_self _ _)) hinv)
      hstep.1 hstep.2

/-- C7.  Last-write-wins: if the last annotation triple for accession `a`
and (case-sensitive) field `f` carries value `v`, then the caster output
cell for that sample and field is `v`. -/
theorem cast_last_write_wins (samples : List SampleDesc)
    (l1 l2 : List (Str × Str × Str)) (a f v : Str)
    (ha : a ∈ samples.map (fun s => s.accession))
    (hf : ¬ pyLower f = S "description")
    (hlast : ∀ t ∈ l2, ¬ (t.1 = a ∧ t.2.1 = f)) :
    f ∈ (cast_eav samples (l1 ++ (a, f, v) :: l2)).1 ∧
      ((cast_eav samples (l1 ++ (a, f, v) :: l2)).2.getD
        (pyIndex a (samples.map (fun s => s.accession))) []).getD
        (pyIndex f (cast_eav samples (l1 ++ (a, f, v) :: l2)).1) (S "NA") =
        v := by
  set accs := samples.map (fun s => s.accession) with haccs
  set anns := l1 ++ (a, f, v) :: l2 with hanns
  have hfold : cast_eav samples anns =
      l2.foldl (castStep accs)
        (castStep accs (l1.foldl (castStep accs) ([], samples.map (fun _ => [])))
          (a, f, v)) := by
    rw [cast_eav, hanns, List.foldl_append, List.foldl_cons]
  have hinit : CastInv accs anns ([], samples.map (fun _ => [])) := by
    refine ⟨by simp [haccs], ?_, List.nodup_nil, ?_, ?_⟩
    · intro row hmem
      rcases List.mem_map.mp hmem with ⟨s, _, hre⟩
      rw [← hre]
    · intro g hg
      exact absurd hg (List.not_mem_nil g)
    · intro row hmem cell hcmem
      rcases List.mem_map.mp hmem with ⟨s, _, hre⟩
      rw [← hre] at hcmem
      exact absurd hcmem (List.not_mem_nil cell)
  have hst1 : CastInv accs anns
      (l1.foldl (castStep accs) ([], samples.map (fun _ => []))) :=
    cast_foldl_inv accs anns l1 _
      (fun t ht => by rw [hanns]; exact List.mem_append_left _ ht) hinit
  have hst2 := castStep_set_cell accs anns a f v
    (l1.foldl (castStep accs) ([], samples.map (fun _ => []))) ha hf hst1
  have hst2inv : CastInv accs anns
      (castStep accs (l1.foldl (castStep accs) ([], samples.map (fun _ => [])))
        (a, f, v)) :=
    castStep_inv accs anns _ _
      (by rw [hanns]; exact List.mem_append_right _ (List.mem_cons_self _ _))
      hst1
  rw [hfold]
  exact cast_foldl_cell accs anns a f v ha l2 _
    (fun t ht => by
      rw [hanns]
      exact List.mem_append_right _ (List.mem_cons_of_mem _ ht))
    hlast hst2inv hst2.1 hst2.2

/-- Witness for C7: triples `(a1, x, 1)` then `(a1, x, 2)`; the cell holds
`"2"`. -/
theorem cast_last_write_wins_witness :
    ((cast_eav [cexSample]
        [(S "a1", S "x", S "1"), (S "a1", S "x", S "2")]).2.getD
      (pyIndex (S "a1") ([cexSample].map (fun s => s.accession))) []).getD
      (pyIndex (S "x")
        (cast_eav [cexSample]
          [(S "a1", S "x", S "1"), (S "a1", S "x", S "2")]).1) (S "NA") =
      S "2" :=
  (cast_last_write_wins [cexSample] [(S "a1", S "x", S "1")] []
    (S "a1") (S "x") (S "2") (by decide) (by decide)
    (fun t ht => absurd ht (List.not_mem_nil t))).2

theorem castStep_rowNA (accs : List Str) (anns : List (Str × Str × Str))
    (j : Nat) (hj : j < accs.length)
    (hnotj : ∀ x ∈ accs, pyIndex x accs ≠ j)
    (st : List Str × List (List Str)) (t : Str × Str × Str)
    (hinv : CastInv accs anns st)
    (hna : st.2.getD j [] = List.replicate st.1.length (S "NA")) :
    (castStep accs st t).2.getD j [] =
      List.replicate (castStep accs st t).1.length (S "NA") := by
  obtain ⟨hlen, hrow, _, _, _⟩ := hinv
  have hjrows : j < st.2.length := by
    rw [hlen]
    exact hj
  by_cases h1 : t.1 ∈ accs
  · by_cases h2 : pyLower t.2.1 = S "description"
    · rw [castStep_desc accs st t h1 h2]
      exact hna
    · have hne : pyIndex t.1 accs ≠ j := hnotj t.1 h1
      by_cases h3 : t.2.1 ∈ st.1
      · rw [castStep_old_field accs st t h1 h2 h3]
        rw [getD_set_ne _ _ _ _ _ hne]
        exact hna
      · rw [castStep_new_field accs st t h1 h2 h3]
        rw [getD_set_ne _ _ _ _ _ hne, getD_map_pad _ _ _ hjrows,
          ← getD_eq_get _ _ _ hjrows, hna]
        simp [List.replicate_succ']
  · rw [castStep_skip accs st t h1]
    exact hna

theorem cast_foldl_rowNA (accs : List Str) (anns : List (Str × Str × Str))
    (j : Nat) (hj : j < accs.length)
    (hnotj : ∀ x ∈ accs, pyIndex x accs ≠ j)
    (l : List (Str × Str × Str)) :
    ∀ (st : List Str × List (List Str)), (∀ t ∈ l, t ∈ anns) →
    CastInv accs anns st →
    st.2.getD j [] = List.replicate st.1.length (S "NA") →
    (l.foldl (castStep accs) st).2.getD j [] =
      List.replicate (l.foldl (castStep accs) st).1.length (S "NA") := by
  induction l with
  | nil => intro st _ _ hna; exact hna
  | cons t rest ih =>
    intro st hsub hinv hna
    exact ih _ (fun x hx => hsub x (List.mem_cons_of_mem t hx))
      (castStep_inv accs anns st t (hsub t (List.mem_cons_self _ _)) hinv)
      (castStep_rowNA accs anns j hj hnotj st t hinv hna)

/-- C10.  When two samples share an accession, the row of the later sample
stays entirely `"NA"`: every annotation for that accession is routed to the
first sample's row (list `index` returns the first occurrence). -/
theorem cast_duplicate_accession (samples : List SampleDesc)
    (anns : List (Str × Str × Str)) (i j : Nat)
    (hij : i < j) (hj : j < samples.length)
    (heq : (samples.get ⟨i, Nat.lt_trans hij hj⟩).accession =
      (samples.get ⟨j, hj⟩).accession) :
    (cast_eav samples anns).2.getD j [] =
      List.replicate (cast_eav samples anns).1.length (S "NA") := by
  have hi2 : i < (samples.map (fun s => s.accession)).length := by
    rw [List.length_map]
    exact Nat.lt_trans hij hj
  have hj2 : j < (samples.map (fun s => s.accession)).length := by
    rw [List.length_map]
    exact hj
  have hacc_i : (samples.map (fun s => s.accession)).get ⟨i, hi2⟩ =
      (samples.get ⟨i, Nat.lt_trans hij hj⟩).accession := by
    simp [List.get_eq_getElem, List.getElem_map]
  have hacc_j : (samples.map (fun s => s.accession)).get ⟨j, hj2⟩ =
      (samples.get ⟨j, hj⟩).accession := by
    simp [List.get_eq_getElem, List.getElem_map]
  have hnotj : ∀ x ∈ samples.map (fun s => s.accession),
      pyIndex x (samples.map (fun s => s.accession)) ≠ j := by
    intro x hx hidx
    have hgj : (samples.map (fun s => s.accession)).get ⟨j, hj2⟩ = x := by
      have hg := get_pyIndex x (samples.map (fun s => s.accession)) hx
      rw [← hg]
      congr 1
      exact Fin.ext hidx.symm
    have hgi : (samples.map (fun s => s.accession)).get ⟨i, hi2⟩ = x := by
      rw [hacc_i, heq, ← hacc_j]
      exact hgj
    have hle : pyIndex x (samples.map (fun s => s.accession)) ≤ i :=
      pyIndex_le_of_get x _ i hi2 hgi
    omega
  have hinit : CastInv (samples.map (fun s => s.accession)) anns
      ([], samples.map (fun _ => [])) := by
    refine ⟨by simp, ?_, List.nodup_nil, ?_, ?_⟩
    · intro row hmem
      rcases List.mem_map.mp hmem with ⟨s, _, hre⟩
      rw [← hre]
    · intro g hg
      exact absurd hg (List.not_mem_nil g)
    · intro row hmem cell hcmem
      rcases List.mem_map.mp hmem with ⟨s, _, hre⟩
      rw [← hre] at hcmem
      exact absurd hcmem (List.not_mem_nil cell)
  have hna0 : (samples.map (fun (_ : SampleDesc) => ([] : List Str))).getD
      j [] = [] := by
    have hjs : j < (samples.map
        (fun (_ : SampleDesc) => ([] : List Str))).length := by
      rw [List.length_map]
      exact hj
    rw [getD_eq_get _ _ _ hjs]
    simp [List.get_eq_getElem, List.getElem_map]
  rw [cast_eav]
  exact cast_foldl_rowNA (samples.map (fun s => s.accession)) anns j hj2 hnotj
    anns _ (fun t ht => ht) hinit (by simp [hna0])

/-- Witness for C10: two samples with the same accession and one annotation
for it; the second row is `["NA"]`. -/
theorem cast_duplicate_accession_witness :
    (cast_eav [cexSample, cexSample] [(S "a1", S "x", S "1")]).2.getD 1 [] =
      List.replicate
        (cast_eav [cexSample, cexSample] [(S "a1", S "x", S "1")]).1.length
        (S "NA") :=
  cast_duplicate_accession [cexSample, cexSample] [(S "a1", S "x", S "1")]
    0 1 (by decide) (by decide) rfl

/-! ## C2: the registry writer / parser round trip -/

theorem rowFill_length (cols : List Str) (s : Rec) (row : List Str) :
    (s.foldl (fun row kv => row.set (pyIndex kv.1 cols) kv.2) row).length =
      row.length := by
  induction s generalizing row with
  | nil => rfl
  | cons kv rest ih =>
    rw [List.foldl_cons, ih]
    simp

theorem rowFill_getD (cols : List Str) (s : Rec) (row : List Str)
    (hnd : (keysOf s).Nodup) (hsub : ∀ k ∈ keysOf s, k ∈ cols)
    (hcolnd : cols.Nodup) (hlen : row.length = cols.length)
    (i : Nat) (hi : i < cols.length) :
    (s.foldl (fun row kv => row.set (pyIndex kv.1 cols) kv.2) row).getD i
        (S "NA") =
      (pyLookup (cols.get ⟨i, hi⟩) s).getD (row.getD i (S "NA")) := by
  induction s generalizing row with
  | nil => simp [pyLookup]
  | cons kv rest ih =>
    have hknd : (keysOf rest).Nodup := by
      rw [keysOf_cons] at hnd
      exact hnd.of_cons
    have hksub : ∀ k ∈ keysOf rest, k ∈ cols :=
      fun k hk => hsub k (by rw [keysOf_cons]; exact List.mem_cons_of_mem _ hk)
    have hkmem : kv.1 ∈ cols := hsub kv.1 (by rw [keysOf_cons]; simp)
    have hlen2 : (row.set (pyIndex kv.1 cols) kv.2).length = cols.length := by
      simpa using hlen
    rw [List.foldl_cons, ih _ hknd hksub hlen2]
    by_cases hc : kv.1 = cols.get ⟨i, hi⟩
    · have hlook : pyLookup (cols.get ⟨i, hi⟩) rest = none := by
        rw [pyLookup_eq_none, ← hc]
        rw [keysOf_cons] at hnd
        exact (List.nodup_cons.mp hnd).1
      have hlook2 : pyLookup (cols.get ⟨i, hi⟩) (kv :: rest) = some kv.2 := by
        rw [show kv = (kv.1, kv.2) from rfl, pyLookup_cons, if_pos hc]
      have hset : (row.set (pyIndex kv.1 cols) kv.2).getD i (S "NA") = kv.2 := by
        have : pyIndex kv.1 cols = i := by
          rw [hc]
          exact pyIndex_get_of_nodup cols i hi hcolnd
        rw [this]
        exact getD_set_self _ _ _ _ (by omega)
      rw [hlook, hlook2, hset]
      rfl
    · have hlook2 : pyLookup (cols.get ⟨i, hi⟩) (kv :: rest) =
          pyLookup (cols.get ⟨i, hi⟩) rest := by
        rw [show kv = (kv.1, kv.2) from rfl, pyLookup_cons,
          if_neg (fun hh => hc hh)]
      have hset : (row.set (pyIndex kv.1 cols) kv.2).getD i (S "NA") =
          row.getD i (S "NA") := by
        apply getD_set_ne
        intro hh
        apply hc
        rw [← get_pyIndex kv.1 cols hkmem]
        congr 1
        exact Fin.ext hh
      rw [hlook2, hset]

theorem createRow_eq (cols : List Str) (r : Rec)
    (hnd : (keysOf r).Nodup) (hsub : ∀ k ∈ keysOf r, k ∈ cols)
    (hcolnd : cols.Nodup) :
    createRow cols r = cols.map (fun c => (pyLookup c r).getD (S "NA")) := by
  have hlen0 : (cols.map (fun (_ : Str) => S "NA")).length = cols.length := by
    simp
  apply List.ext_get
  · rw [createRow, rowFill_length, hlen0]
    simp
  · intro i h1 h2
    have hi : i < cols.length := by simpa using h2
    have hl : i < (createRow cols r).length := h1
    rw [← getD_eq_get _ _ (S "NA") hl]
    rw [createRow, rowFill_getD cols r _ hnd hsub hcolnd hlen0 i hi]
    have hinit : (cols.map (fun (_ : Str) => S "NA")).getD i (S "NA") =
        S "NA" := by
      rw [getD_eq_get _ _ _ (by simpa using hi)]
      simp [List.get_eq_getElem, List.getElem_map]
    rw [hinit]
    simp [List.get_eq_getElem, List.getElem_map]

theorem zip_map_self (cols : List Str) (f : Str → Str) :
    cols.zip (cols.map f) = cols.map (fun c => (c, f c)) := by
  induction cols with
  | nil => rfl
  | cons c rest ih => simp [ih]

theorem filter_map_pair (cols : List Str) (f : Str → Str) :
    (cols.map (fun c => (c, f c))).filter (fun p => p.2 ∉ NAs) =
      (cols.filter (fun c => f c ∉ NAs)).map (fun c => (c, f c)) := by
  induction cols with
  | nil => rfl
  | cons c rest ih =>
    by_cases hc : f c ∉ NAs
    · rw [List.map_cons, List.filter_cons, List.filter_cons, if_pos (by simpa),
        if_pos (by simpa), List.map_cons, ih]
    · have hc2 : f c ∈ NAs := not_not.mp hc
      rw [List.map_cons, List.filter_cons, List.filter_cons,
        if_neg (by simp [hc2]), if_neg (by simp [hc2]), ih]

theorem pyLookup_map_pair (l : List Str) (f : Str → Str) (k : Str) :
    pyLookup k (l.map (fun c => (c, f c))) =
      if k ∈ l then some (f k) else none := by
  induction l with
  | nil => simp [pyLookup]
  | cons c rest ih =>
    rw [List.map_cons, pyLookup_cons]
    by_cases hc : c = k
    · rw [if_pos hc, if_pos (by rw [← hc]; simp), hc]
    · rw [if_neg hc, ih]
      by_cases hk : k ∈ rest
      · rw [if_pos hk, if_pos (List.mem_cons_of_mem c hk)]
      · rw [if_neg hk, if_neg (by
          intro hh
          rcases List.mem_cons.mp hh with h1 | h1
          · exact hc h1.symm
          · exact hk h1)]

theorem pyLookup_filter_none (k : Str) (r : Rec) (q : Str × Str → Bool)
    (h : k ∉ keysOf r) : pyLookup k (r.filter q) = none := by
  rw [pyLookup_eq_none]
  intro hmem
  apply h
  rcases List.mem_map.mp hmem with ⟨p, hp, hpk⟩
  exact List.mem_map.mpr ⟨p, (List.mem_filter.mp hp).1, hpk⟩

theorem pyLookup_filter_val (r : Rec) (hnd : (keysOf r).Nodup) (k : Str) :
    pyLookup k (r.filter (fun kv => kv.2 ∉ NAs)) =
      match pyLookup k r with
      | some v => if v ∈ NAs then none else some v
      | none => none := by
  induction r with
  | nil => simp [pyLookup]
  | cons p rest ih =>
    have hknd : (keysOf rest).Nodup := by
      rw [keysOf_cons] at hnd
      exact hnd.of_cons
    by_cases hp : p.1 = k
    · rw [show p = (p.1, p.2) from rfl, pyLookup_cons, if_pos hp]
      have hred : (match (some p.2 : Option Str) with
          | some v => if v ∈ NAs then none else some v
          | none => none) = if p.2 ∈ NAs then none else some p.2 := rfl
      rw [hred]
      have hnotin : k ∉ keysOf rest := by
        rw [keysOf_cons] at hnd
        rw [← hp]
        exact (List.nodup_cons.mp hnd).1
      by_cases hv : p.2 ∈ NAs
      · rw [if_pos hv, List.filter_cons, if_neg (by simp [hv])]
        exact pyLookup_filter_none k rest _ hnotin
      · rw [if_neg hv, List.filter_cons, if_pos (by simpa), pyLookup_cons,
          if_pos hp]
    · rw [show p = (p.1, p.2) from rfl, pyLookup_cons, if_neg hp]
      by_cases hv : p.2 ∈ NAs
      · rw [List.filter_cons, if_neg (by simp [hv])]
        exact ih hknd
      · rw [List.filter_cons, if_pos (by simpa), pyLookup_cons, if_neg hp]
        exact ih hknd

theorem cleanStr_head_not_space (s : Str) (h : cleanStr s) (c : Char)
    (hc : s.head? = some c) : pyIsSpace c = false := by
  rcases s with _ | ⟨c0, rest⟩
  · cases hc
  · have hc0 : c0 = c := by simpa using hc
    subst hc0
    rcases hp : pyIsSpace c0 with _ | _
    · rfl
    · exfalso
      have hdrop : (c0 :: rest).dropWhile pyIsSpace = rest.dropWhile pyIsSpace := by
        simp [List.dropWhile_cons, hp]
      have hlen : (pyStrip (c0 :: rest)).length ≤ rest.length := by
        unfold pyStrip
        rw [hdrop]
        calc ((rest.dropWhile pyIsSpace).reverse.dropWhile pyIsSpace).reverse.length
            = ((rest.dropWhile pyIsSpace).reverse.dropWhile pyIsSpace).length := by
              simp
          _ ≤ (rest.dropWhile pyIsSpace).reverse.length :=
              (List.dropWhile_suffix pyIsSpace).length_le
          _ = (rest.dropWhile pyIsSpace).length := by simp
          _ ≤ rest.length := (List.dropWhile_suffix pyIsSpace).length_le
      rw [h.2.1] at hlen
      simp only [List.length_cons] at hlen
      omega

theorem joinTab_cons_ex (s0 : Str) (rest : List Str) :
    ∃ m, joinTab (s0 :: rest) = s0 ++ m := by
  cases rest with
  | nil => exact ⟨[], by simp [joinTab]⟩
  | cons s1 rest2 => exact ⟨'\t' :: joinTab (s1 :: rest2), rfl⟩

theorem startsWithHash_eq_false (s : Str) (h : s.head? ≠ some '#') :
    startsWithHash s = false := by
  rcases s with _ | ⟨c, rest⟩
  · rfl
  · simp only [startsWithHash, decide_eq_false_iff_not]
    intro hh
    exact h (by rw [hh]; rfl)

theorem startsWithHash_append (s0 m : Str) (h : s0 ≠ []) :
    startsWithHash (s0 ++ m) = startsWithHash s0 := by
  rcases s0 with _ | ⟨c, rest⟩
  · exact absurd rfl h
  · rfl

theorem lstripHash_eq_self (s : Str) (c : Char) (hc : s.head? = some c)
    (h : c ≠ '#') : lstripHash s = s := by
  rcases s with _ | ⟨c0, rest⟩
  · rfl
  · have hc0 : c0 = c := by simpa using hc
    subst hc0
    simp [lstripHash, List.dropWhile_cons, h]

theorem parseLines_map (ks : List Str) (lines : List Str)
    (h : ∀ l ∈ lines, startsWithHash l = false ∧ pyStrip l ≠ []) :
    parseLines ks lines = lines.map (fun l => mkRecord ks (tokenize l)) := by
  induction lines with
  | nil => rfl
  | cons l rest ih =>
    rcases h l (List.mem_cons_self _ _) with ⟨h1, h2⟩
    rw [parseLines, h1]
    simp only [Bool.false_eq_true, if_false]
    rw [if_neg h2, ih (fun x hx => h x (List.mem_cons_of_mem l hx)),
      List.map_cons]

theorem parsed_record_lookup (cols : List Str) (r : Rec)
    (hnd : (keysOf r).Nodup) (hsub : ∀ k ∈ keysOf r, k ∈ cols)
    (hcolnd : cols.Nodup) (k : Str) :
    pyLookup k
      (mkRecord cols (cols.map (fun c => (pyLookup c r).getD (S "NA")))) =
      pyLookup k (r.filter (fun kv => kv.2 ∉ NAs)) := by
  rw [mkRecord, zip_map_self, filter_map_pair]
  have hkeys : keysOf ((cols.filter
      (fun c => (pyLookup c r).getD (S "NA") ∉ NAs)).map
      (fun c => (c, (pyLookup c r).getD (S "NA")))) =
      cols.filter (fun c => (pyLookup c r).getD (S "NA") ∉ NAs) := by
    simp only [keysOf, List.map_map]
    have hcomp : ((fun (p : Str × Str) => p.1) ∘
        fun c => (c, (pyLookup c r).getD (S "NA"))) = fun c : Str => c := rfl
    rw [hcomp, List.map_id']
  rw [pyDict_of_nodup _ (by rw [hkeys]; exact hcolnd.filter _),
    pyLookup_map_pair, pyLookup_filter_val r hnd k]
  rcases hkr : pyLookup k r with _ | v
  · have hfk : (pyLookup k r).getD (S "NA") = S "NA" := by
      rw [hkr]
      rfl
    rw [if_neg (by
      intro hmem
      have := (List.mem_filter.mp hmem).2
      rw [hfk] at this
      simp at this
      exact this (by decide))]
  · have hfk : (pyLookup k r).getD (S "NA") = v := by
      rw [hkr]
      rfl
    have hkcols : k ∈ cols := hsub k ((pyLookup_isSome k r).mp (by simp [hkr]))
    have hred : (match (some v : Option Str) with
        | some v => if v ∈ NAs then none else some v
        | none => none) = if v ∈ NAs then none else some v := rfl
    rw [hred]
    by_cases hv : v ∈ NAs
    · rw [if_pos hv, if_neg (by
        intro hmem
        have := (List.mem_filter.mp hmem).2
        rw [hfk] at this
        simp at this
        exact this hv)]
    · rw [if_neg hv, if_pos (List.mem_filter.mpr ⟨hkcols, by simp [hfk, hv]⟩)]
      rfl

/-- C2 (amended).  For records with duplicate-free, clean keys and clean,
nonempty values that do not begin with the comment marker, parsing the
lines written by the Registry Writer returns the same number of records in
the same order, each dict-equal to the original minus its
missing-value-token cells. -/
theorem registry_round_trip (recs : List Rec)
    (hnd : ∀ r ∈ recs, (keysOf r).Nodup)
    (hkey : ∀ r ∈ recs, ∀ k ∈ keysOf r, cleanStr k)
    (hval : ∀ r ∈ recs, ∀ kv ∈ r, cleanStr kv.2 ∧ kv.2.head? ≠ some '#') :
    ∃ out, parse (create recs) = .ok out ∧
      out.length = recs.length ∧
      ∀ i (ho : i < out.length) (hi : i < recs.length) (k : Str),
        pyLookup k (out.get ⟨i, ho⟩) =
          pyLookup k ((recs.get ⟨i, hi⟩).filter (fun kv => kv.2 ∉ NAs)) := by
  set cols := createColumns recs with hcols
  have hcolnd : cols.Nodup := createColumns_nodup recs
  obtain ⟨tl, htl⟩ : ∃ t,
      cols = [S "sample_name", S "barcode_sequence"] ++ t :=
    createColumns_isPrefix recs
  have hcolclean : ∀ c ∈ cols, cleanStr c := by
    intro c hc
    rcases mem_createColumns recs c hc with h1 | h1 | ⟨r, hr, hk⟩
    · rw [h1]
      decide
    · rw [h1]
      decide
    · exact hkey r hr c hk
  have hcolne : cols ≠ [] := by
    rw [htl]
    simp
  obtain ⟨m, hm⟩ : ∃ m, joinTab cols = S "sample_name" ++ m := by
    rw [htl]
    exact joinTab_cons_ex _ _
  have hlstrip : lstripHash (joinTab cols) = joinTab cols := by
    apply lstripHash_eq_self _ 's' _ (by decide)
    rw [hm]
    rfl
  have hks : tokenize (lstripHash (joinTab cols)) = cols := by
    rw [hlstrip]
    exact tokenize_joinTab cols hcolne hcolclean
  have hanyfalse : (cols.any (fun k => k.isEmpty)) = false := by
    cases ha : cols.any (fun k => k.isEmpty) with
    | false => rfl
    | true =>
      exfalso
      rcases List.any_eq_true.mp ha with ⟨x, hx, hxe⟩
      exact (hcolclean x hx).1 (by simpa using hxe)
  have hcell0 : ∀ r ∈ recs,
      cleanStr ((pyLookup (S "sample_name") r).getD (S "NA")) ∧
      ((pyLookup (S "sample_name") r).getD (S "NA")).head? ≠ some '#' := by
    intro r hr
    rcases hl : pyLookup (S "sample_name") r with _ | v
    · constructor
      · decide
      · decide
    · exact hval r hr (S "sample_name", v) (pyLookup_mem _ _ r hl)
  have hrs : ∀ r ∈ recs,
      startsWithHash (joinTab (createRow cols r)) = false ∧
      pyStrip (joinTab (createRow cols r)) ≠ [] ∧
      tokenize (joinTab (createRow cols r)) =
        cols.map (fun c => (pyLookup c r).getD (S "NA")) := by
    intro r hr
    have hsubr : ∀ k ∈ keysOf r, k ∈ cols :=
      fun k hk => mem_createColumns_of_key recs r k hr hk
    have hrow : createRow cols r =
        cols.map (fun c => (pyLookup c r).getD (S "NA")) :=
      createRow_eq cols r (hnd r hr) hsubr hcolnd
    have hcellclean : ∀ x ∈ cols.map
        (fun c => (pyLookup c r).getD (S "NA")), cleanStr x := by
      intro x hx
      rcases List.mem_map.mp hx with ⟨c, _, hce⟩
      rcases hl : pyLookup c r with _ | v
      · rw [← hce, hl]
        decide
      · rw [← hce, hl]
        exact (hval r hr (c, v) (pyLookup_mem _ _ r hl)).1
    obtain ⟨restc, hrestc⟩ : ∃ restc,
        cols.map (fun c => (pyLookup c r).getD (S "NA")) =
          ((pyLookup (S "sample_name") r).getD (S "NA")) :: restc := by
      rw [htl]
      exact ⟨_, rfl⟩
    obtain ⟨m2, hm2⟩ : ∃ m2,
        joinTab (cols.map (fun c => (pyLookup c r).getD (S "NA"))) =
          ((pyLookup (S "sample_name") r).getD (S "NA")) ++ m2 := by
      rw [hrestc]
      exact joinTab_cons_ex _ _
    have hc0 := hcell0 r hr
    have hc0ne : (pyLookup (S "sample_name") r).getD (S "NA") ≠ [] := hc0.1.1
    refine ⟨?_, ?_, ?_⟩
    · rw [hrow, hm2, startsWithHash_append _ _ hc0ne]
      exact startsWithHash_eq_false _ hc0.2
    · rw [hrow, hm2]
      rcases hh : ((pyLookup (S "sample_name") r).getD (S "NA")) with _ | ⟨c0, r0⟩
      · exact absurd hh hc0ne
      · apply pyStrip_ne_nil _ c0 (by simp)
        apply cleanStr_head_not_space _ hc0.1
        rw [hh]
        rfl
    · rw [hrow]
      apply tokenize_joinTab _ (by rw [hrestc]; simp) hcellclean
  have hcreate : create recs =
      joinTab cols :: recs.map (fun r => joinTab (createRow cols r)) := by
    rw [hcols]
    rfl
  have hparse : parse (create recs) = .ok (recs.map (fun r =>
      mkRecord cols (cols.map (fun c => (pyLookup c r).getD (S "NA"))))) := by
    rw [hcreate]
    have hp1 : parse (joinTab cols ::
        recs.map (fun r => joinTab (createRow cols r))) =
        if (tokenize (lstripHash (joinTab cols))).any (fun k => k.isEmpty)
        then .error .blankHeaderKey
        else .ok (parseLines (tokenize (lstripHash (joinTab cols)))
          (recs.map (fun r => joinTab (createRow cols r)))) := rfl
    rw [hp1, hks, hanyfalse, if_neg (by simp)]
    rw [parseLines_map cols _ (by
      intro l hl
      rcases List.mem_map.mp hl with ⟨r, hr, hre⟩
      rw [← hre]
      exact ⟨(hrs r hr).1, (hrs r hr).2.1⟩)]
    rw [List.map_map]
    congr 1
    apply List.map_congr_left
    intro r hr
    show mkRecord cols (tokenize (joinTab (createRow cols r))) = _
    rw [(hrs r hr).2.2]
  refine ⟨_, hparse, by simp, ?_⟩
  intro i ho hi k
  have hget : (recs.map (fun r => mkRecord cols
      (cols.map (fun c => (pyLookup c r).getD (S "NA"))))).get ⟨i, ho⟩ =
      mkRecord cols (cols.map
        (fun c => (pyLookup c (recs.get ⟨i, hi⟩)).getD (S "NA"))) := by
    simp [List.get_eq_getElem, List.getElem_map]
  rw [hget]
  have hrmem : recs.get ⟨i, hi⟩ ∈ recs := List.get_mem recs i hi
  exact parsed_record_lookup cols _ (hnd _ hrmem)
    (fun k2 hk2 => mem_createColumns_of_key recs _ k2 hrmem hk2) hcolnd k

/-- Witness for C2 (amended) at a concrete two-record input with an extra
annotation column and an `"NA"` cell. -/
theorem registry_round_trip_witness :
    parse (create [[(S "sample_name", S "S1"), (S "barcode_sequence", S "AGCT")],
      [(S "sample_name", S "S2"), (S "barcode_sequence", S "TTTT"),
       (S "plate", S "P1")]]) =
      .ok [[(S "sample_name", S "S1"), (S "barcode_sequence", S "AGCT")],
           [(S "sample_name", S "S2"), (S "barcode_sequence", S "TTTT"),
            (S "plate", S "P1")]] ∧
    ∀ k : Str,
      pyLookup k [(S "sample_name", S "S1"), (S "barcode_sequence", S "AGCT")] =
      pyLookup k ([(S "sample_name", S "S1"),
        (S "barcode_sequence", S "AGCT")].filter
          (fun kv => kv.2 ∉ NAs)) := by
  obtain ⟨out, hparse, hlen, hlook⟩ := registry_round_trip
    [[(S "sample_name", S "S1"), (S "barcode_sequence", S "AGCT")],
     [(S "sample_name", S "S2"), (S "barcode_sequence", S "TTTT"),
      (S "plate", S "P1")]]
    (by decide) (by decide) (by decide)
  have hcomp : parse (create
      [[(S "sample_name", S "S1"), (S "barcode_sequence", S "AGCT")],
       [(S "sample_name", S "S2"), (S "barcode_sequence", S "TTTT"),
        (S "plate", S "P1")]]) =
      .ok [[(S "sample_name", S "S1"), (S "barcode_sequence", S "AGCT")],
           [(S "sample_name", S "S2"), (S "barcode_sequence", S "TTTT"),
            (S "plate", S "P1")]] := rfl
  rw [hparse] at hcomp
  have hout := Except.ok.inj hcomp
  subst hout
  refine ⟨hparse, fun k => ?_⟩
  exact hlook 0 (by decide) (by decide) k
